import Mathlib

/- Verification development for the playlist reordering engine in
   src/playlist.c (spotifysort).

   The engine consumes the flat, ordered playlist container (items, folder
   start markers, folder end markers, placeholders), rebuilds the folder
   tree (`sort_playlists` main loop), sorts every level by name
   (`sort_list` / `merge_sort` / `merge`), flattens the sorted tree into a
   target permutation of original positions (`flatten_list`), and then
   walks destination slots emitting container moves, keeping the pending
   indexes in sync (`recalculate_indexes`).

   Conventions of the embedding:
   * names are byte strings, modelled as `List Nat` compared by `strcmpLt`
     (strict byte-wise lexicographic order, exactly C `strcmp(..) < 0`);
   * C `int` values that can hold the sentinel -1 (`end_index`, the
     entries of the `reorder` array) are `Int`; positions are `Nat`;
   * linked lists of sibling nodes become `List Node`; the `children`
     pointer becomes the `children` field; the `parent`/`previous`
     pointers of the builder become an explicit stack of open folders;
   * the uninitialised contents of the `malloc`ed `reorder` array are a
     parameter `junk : Nat → Int` of the pass;
   * a NULL-pointer dereference is `none`. -/

/-- One slot of the flat playlist container, as read from the external
container API (`sp_playlistcontainer_playlist_type` etc.). -/
inductive Entry where
  | item (name : List Nat) (loaded : Bool)
  | groupStart (name : List Nat)
  | groupEnd
  | placeholder
deriving DecidableEq

/-- Tree node: `playlist_item` (fields `index`, `end_index`, `name`)
fused with `struct s_node`; the sibling `next` pointer is the enclosing
`List Node`, the `children` pointer is the `children` field.  A fresh
node has `end_index = -1` (`create_playlist_item`). -/
inductive Node where
  | mk (index : Nat) (endIndex : Int) (name : List Nat) (children : List Node)

def Node.index : Node → Nat
  | .mk i _ _ _ => i

def Node.endIndex : Node → Int
  | .mk _ e _ _ => e

def Node.name : Node → List Nat
  | .mk _ _ nm _ => nm

def Node.children : Node → List Node
  | .mk _ _ _ cs => cs

/-- C `strcmp(a, b) < 0` on byte strings: strict lexicographic order. -/
def strcmpLt : List Nat → List Nat → Bool
  | [], [] => false
  | [], _ :: _ => true
  | _ :: _, [] => false
  | a :: as, b :: bs => if a < b then true else if b < a then false else strcmpLt as bs

/-- Merge step of the merge sort (playlist.c, lines 133-151): take the
strictly smaller head; when `strcmp` is not `< 0` (so also on a tie) the
C code takes `head_two`, the head of the right list. -/
def merge : List Node → List Node → List Node
  | [], l2 => l2
  | a :: l1, [] => a :: l1
  | a :: l1, b :: l2 =>
      if strcmpLt a.name b.name then a :: merge l1 (b :: l2)
      else b :: merge (a :: l1) l2

/-- Linked-list merge sort of one sibling level (playlist.c, lines
114-131).  The slow/fast pointer split puts the first `(n+1)/2` nodes in
`head_one` (the left run) and the rest in `head_two`. -/
def merge_sort (l : List Node) : List Node :=
  if l.length ≤ 1 then l
  else merge (merge_sort (l.take ((l.length + 1) / 2)))
             (merge_sort (l.drop ((l.length + 1) / 2)))
termination_by l.length
decreasing_by
  · simp [List.length_take]; omega
  · simp [List.length_drop]; omega

/-- Recursive children pass of `sort_list` (playlist.c, lines 156-160):
replace every node's children by their fully sorted version. -/
def sortEach : List Node → List Node
  | [] => []
  | .mk i e nm cs :: rest => .mk i e nm (merge_sort (sortEach cs)) :: sortEach rest

/-- `sort_list` (playlist.c, lines 153-163): sort the children of every
node of the level, then merge sort the level itself. -/
def sort_list (l : List Node) : List Node := merge_sort (sortEach l)

/-- Per-node form of the children pass. -/
def sortChildren (n : Node) : Node :=
  match n with
  | .mk i e nm cs => .mk i e nm (sort_list cs)

/-- `_flatten_list` (playlist.c, lines 167-178): emit the node's
`index`; if the node has children, flatten them and then emit the node's
`end_index`; continue with the next sibling.  A node without children
(also a folder whose children list is empty) emits no `end_index`. -/
def flatten_list : List Node → List Int
  | [] => []
  | .mk i _ _ [] :: rest => (i : Int) :: flatten_list rest
  | .mk i e _ (c :: cs) :: rest =>
      (i : Int) :: (flatten_list (c :: cs) ++ e :: flatten_list rest)

/-- Contribution of a single node (and its subtree) to `flatten_list`. -/
def flattenNode (n : Node) : List Int :=
  match n with
  | .mk i e _ cs => (i : Int) :: (if cs.isEmpty then [] else flatten_list cs ++ [e])

/-- Increment every entry smaller than `orig` (the loop body of
`recalculate_indexes`). -/
def bump (orig : Int) : List Int → List Int
  | [] => []
  | v :: vs => (if v < orig then v + 1 else v) :: bump orig vs

/-- `recalculate_indexes` (playlist.c, lines 188-198): after moving the
item that sat at original slot `reorder[moved]`, every still-pending
entry from position `moved` on that is smaller than it shifts up one. -/
def recalculate_indexes (r : List Int) (moved : Nat) : List Int :=
  r.take moved ++ bump (r.getD moved 0) (r.drop moved)

/-- Fueled move loop of `sort_playlists` (playlist.c, lines 347-358):
for each destination `i`, if `reorder[i] != i` emit the container move
`(reorder[i], i)` and recalculate the pending indexes.  The fuel is the
number of remaining iterations. -/
def moveLoopAux : List Int → Nat → Nat → List (Int × Int)
  | _, _, 0 => []
  | r, i, f + 1 =>
      if (i : Int) = r.getD i 0 then moveLoopAux r (i + 1) f
      else (r.getD i 0, (i : Int)) :: moveLoopAux (recalculate_indexes r i) (i + 1) f

/-- The sequence of `(from, to)` moves emitted by the move loop run over
the whole `reorder` array. -/
def move_list (r : List Int) : List (Int × Int) := moveLoopAux r 0 r.length

/-- State of the tree-building loop of `sort_playlists`: `stack` holds,
innermost first, each open folder (the `parent` chain) together with the
sibling list already finished to its left and its position and name;
`current` is the sibling list accumulated at the current level (the
`previous` pointer points at its last node); `notLoaded` is the
`not_loaded` counter. -/
structure BuildState where
  stack : List (List Node × Nat × List Nat)
  current : List Node
  notLoaded : Nat

/-- One iteration of the building loop (playlist.c, lines 271-330).
A loaded item appends a leaf; an unloaded one only bumps `not_loaded`;
a folder start opens a new level; a folder end closes the current level,
recording `end_index` — if no folder is open (`parent == NULL`), the C
code dereferences a NULL pointer, which we model as `none`; a
placeholder is skipped. -/
def buildStep (s : BuildState) (pos : Nat) (e : Entry) : Option BuildState :=
  match e with
  | .item nm loaded =>
      if loaded then some ⟨s.stack, s.current ++ [Node.mk pos (-1) nm []], s.notLoaded⟩
      else some ⟨s.stack, s.current, s.notLoaded + 1⟩
  | .groupStart nm => some ⟨(s.current, pos, nm) :: s.stack, [], s.notLoaded⟩
  | .groupEnd =>
      match s.stack with
      | [] => none
      | (saved, gi, gnm) :: rest =>
          some ⟨rest, saved ++ [Node.mk gi (pos : Int) gnm s.current], s.notLoaded⟩
  | .placeholder => some s

/-- Run the building loop over the entries starting at position `pos`. -/
def runBuild : List Entry → Nat → BuildState → Option BuildState
  | [], _, s => some s
  | e :: es, pos, s =>
      match buildStep s pos e with
      | none => none
      | some s2 => runBuild es (pos + 1) s2

/-- Folders still open when the input ends keep `end_index = -1` and
stay linked in place; this reconstructs the forest the C pointer
structure holds in that case. -/
def closeOpen : List (List Node × Nat × List Nat) → List Node → List Node
  | [], cur => cur
  | (saved, gi, gnm) :: rest, cur => closeOpen rest (saved ++ [Node.mk gi (-1) gnm cur])

/-- The whole building loop: `none` models the NULL-pointer crash on a
folder end with no open folder; otherwise the forest rooted at `items`
plus the final `not_loaded` count. -/
def buildForest (E : List Entry) : Option (List Node × Nat) :=
  match runBuild E 0 ⟨[], [], 0⟩ with
  | none => none
  | some s => some (closeOpen s.stack s.current, s.notLoaded)

/-- Observable external effects of one pass: the error report
(`printf("ERROR: %d playlists could not be loaded\n", ...)`) and the
container move calls (`sp_playlistcontainer_move_playlist`). -/
inductive OutEvent where
  | reportNotLoaded (count : Nat)
  | move (src dst : Int)
deriving DecidableEq

/-- Contents of the `malloc`ed `reorder` array of `num_playlists` ints:
the prefix written by `flatten_list`, the rest whatever `malloc`
returned (`junk`). -/
def reorderArray (n : Nat) (flat : List Int) (junk : Nat → Int) : List Int :=
  (List.range n).map (fun i => if i < flat.length then flat.getD i 0 else junk i)

/-- `sort_playlists` (playlist.c, lines 248-379): build the tree; if any
playlist was not loaded, report and abort; if no node was built
(`items == NULL`) do nothing; otherwise sort, flatten and run the move
loop.  `none` models the crash on malformed nesting. -/
def sort_playlists (junk : Nat → Int) (E : List Entry) : Option (List OutEvent) :=
  match buildForest E with
  | none => none
  | some (forest, notLoaded) =>
      if 0 < notLoaded then some [OutEvent.reportNotLoaded notLoaded]
      else if forest.isEmpty then some []
      else
        some ((move_list (reorderArray E.length (flatten_list (sort_list forest)) junk)).map
          (fun m => OutEvent.move m.1 m.2))

/-- Semantics of one container move with remove-then-reinsert shifting;
this is the TESTING-mode `move_playlist` (playlist.c, lines 214-242)
expressed on lists: take the element out of slot `src` and reinsert it
at slot `dst`.  An out-of-range source is rejected (no-op). -/
def move_playlist (l : List Int) (src dst : Int) : List Int :=
  if 0 ≤ src ∧ src.toNat < l.length then
    (l.eraseIdx src.toNat).insertIdx dst.toNat (l.getD src.toNat 0)
  else l

/-- Apply a sequence of emitted moves, in order, to a simulcontainer. -/
def simulate (init : List Int) (moves : List (Int × Int)) : List Int :=
  moves.foldl (fun l m => move_playlist l m.1 m.2) init

/-- The original order of the live collection, as position labels. -/
def idInts (n : Nat) : List Int := (List.range n).map Int.ofNat

/-- Positions of the non-placeholder entries of the input, starting at
base position `pos`. -/
def nonPhPos : List Entry → Nat → List Int
  | [], _ => []
  | .placeholder :: es, pos => nonPhPos es (pos + 1)
  | _ :: es, pos => (pos : Int) :: nonPhPos es (pos + 1)

/-- Number of item entries reported as not loaded. -/
def countUnloaded (E : List Entry) : Nat :=
  E.countP (fun e => match e with | .item _ false => true | _ => false)

/-- Every item entry reports loaded. -/
def fullyLoadedB (E : List Entry) : Bool :=
  E.all (fun e => match e with | .item _ l => l | _ => true)

/-- No placeholder entries. -/
def placeholderFreeB (E : List Entry) : Bool :=
  E.all (fun e => match e with | .placeholder => false | _ => true)

/-- Nesting depth scan: `none` when a folder end appears with no folder
open, otherwise the final depth. -/
def runDepth : Nat → List Entry → Option Nat
  | d, [] => some d
  | d, .groupStart _ :: es => runDepth (d + 1) es
  | d, .groupEnd :: es =>
      match d with
      | 0 => none
      | d' + 1 => runDepth d' es
  | d, .item _ _ :: es => runDepth d es
  | d, .placeholder :: es => runDepth d es

/-- Balanced input: start/end markers properly nested and all closed
(the spec's structural invariant on Entry sequences). -/
def balanced (E : List Entry) : Bool := runDepth 0 E == some 0

/-- Check that no folder node anywhere in the forest has an empty child
list (an "empty group": its end marker is silently dropped by
`flatten_list`).  A node is a folder exactly when `end_index ≠ -1`. -/
def noEmptyGroups : List Node → Bool
  | [] => true
  | .mk _ e _ cs :: rest =>
      (e == -1 || !cs.isEmpty) && noEmptyGroups cs && noEmptyGroups rest

/-- Duplicate-freeness of a list of names. -/
def namesNodup : List (List Nat) → Bool
  | [] => true
  | x :: xs => !(xs.contains x) && namesNodup xs

/-- Check that below the root level no two siblings share a name. -/
def distinctSibAux : List Node → Bool
  | [] => true
  | .mk _ _ _ cs :: rest =>
      (namesNodup (cs.map Node.name) && distinctSibAux cs) && distinctSibAux rest

/-- No two siblings anywhere in the forest (root level included) share a
name. -/
def distinctSibNames (l : List Node) : Bool :=
  namesNodup (l.map Node.name) && distinctSibAux l

/-- State of the `reorder` array just before destination slot `i` is
processed by the move loop. -/
def workingAt (r : List Int) : Nat → List Int
  | 0 => r
  | i + 1 =>
      if (i : Int) = (workingAt r i).getD i 0 then workingAt r i
      else recalculate_indexes (workingAt r i) i

/-- All nodes of the forest, each node followed by its subtree. -/
def allNodes : List Node → List Node
  | [] => []
  | .mk i e nm cs :: rest => Node.mk i e nm cs :: (allNodes cs ++ allNodes rest)

/-- Re-encoding of a forest as a flat entry sequence: a childless node
as a loaded item, a node with children as a folder.  Feeding the
pipeline its own output order means re-reading exactly this sequence. -/
def encode : List Node → List Entry
  | [] => []
  | .mk _ _ nm [] :: rest => .item nm true :: encode rest
  | .mk _ _ nm (c :: cs) :: rest =>
      .groupStart nm :: (encode (c :: cs) ++ .groupEnd :: encode rest)

/-- Relabelling of a forest with fresh consecutive positions in encoding
order, as the builder of a second pass assigns them. -/
def relabel : List Node → Nat → List Node
  | [], _ => []
  | .mk _ _ nm [] :: rest, p => .mk p (-1) nm [] :: relabel rest (p + 1)
  | .mk _ _ nm (c :: cs) :: rest, p =>
      .mk p ((p + 1 + (encode (c :: cs)).length : Nat) : Int)
          nm (relabel (c :: cs) (p + 1)) ::
        relabel rest (p + 1 + (encode (c :: cs)).length + 1)

/-- Non-strict name order: `b` does not compare strictly below `a`
(C `strcmp(b, a) >= 0`); consecutive siblings of a sorted level satisfy
it. -/
def nameLe (a b : List Nat) : Prop := strcmpLt b a = false

/-- A balanced entry segment `seg`, sitting at absolute base position
`pos`, denotes the forest `F` that the building loop appends to the
current level, while counting `k` unloaded items.  This mirrors one
level of the grammar items / placeholders / `groupStart inner groupEnd`. -/
inductive Denotes : List Entry → Nat → List Node → Nat → Prop
  | nil (pos : Nat) : Denotes [] pos [] 0
  | itemT (nm : List Nat) (es : List Entry) (pos : Nat) (F : List Node) (k : Nat) :
      Denotes es (pos + 1) F k →
      Denotes (.item nm true :: es) pos (Node.mk pos (-1) nm [] :: F) k
  | itemF (nm : List Nat) (es : List Entry) (pos : Nat) (F : List Node) (k : Nat) :
      Denotes es (pos + 1) F k →
      Denotes (.item nm false :: es) pos F (k + 1)
  | ph (es : List Entry) (pos : Nat) (F : List Node) (k : Nat) :
      Denotes es (pos + 1) F k →
      Denotes (.placeholder :: es) pos F k
  | group (nm : List Nat) (inner es : List Entry) (pos : Nat)
      (C F : List Node) (k1 k2 : Nat) :
      Denotes inner (pos + 1) C k1 →
      Denotes es (pos + 1 + inner.length + 1) F k2 →
      Denotes (.groupStart nm :: (inner ++ .groupEnd :: es)) pos
        (Node.mk pos ((pos + 1 + inner.length : Nat) : Int) nm C :: F) (k1 + k2)

/-- Every sibling list at every depth is sorted (consecutive names
non-decreasing). -/
inductive AllSortedF : List Node → Prop
  | mk (l : List Node) :
      List.Chain' (fun a b => nameLe a.name b.name) l →
      (∀ n ∈ l, AllSortedF n.children) →
      AllSortedF l

/-- Every sibling list at every depth is strictly sorted. -/
inductive StrictSortedF : List Node → Prop
  | mk (l : List Node) :
      List.Chain' (fun a b => strcmpLt a.name b.name = true) l →
      (∀ n ∈ l, StrictSortedF n.children) →
      StrictSortedF l

/-- Node `n` faithfully describes the entries of `E` it was built from:
a childless node is a loaded item of the same name; a node with children
is a folder whose recorded `end_index` points at a folder end, children
likewise faithful. -/
inductive GoodT (E : List Entry) : Node → Prop
  | leaf (i : Nat) (nm : List Nat) :
      E[i]? = some (.item nm true) →
      GoodT E (Node.mk i (-1) nm [])
  | group (i : Nat) (e : Nat) (nm : List Nat) (cs : List Node) :
      E[i]? = some (.groupStart nm) →
      E[e]? = some .groupEnd →
      cs ≠ [] →
      (∀ c ∈ cs, GoodT E c) →
      GoodT E (Node.mk i ((e : Nat) : Int) nm cs)

/- ===== Order facts about strcmpLt ===== -/

theorem strcmpLt_irrefl (a : List Nat) : strcmpLt a a = false := by
  induction a with
  | nil => rfl
  | cons x as ih => simp [strcmpLt, ih]

theorem strcmpLt_trans : ∀ {a b c : List Nat},
    strcmpLt a b = true → strcmpLt b c = true → strcmpLt a c = true := by
  intro a
  induction a with
  | nil =>
    intro b c h1 h2
    cases b with
    | nil => simp [strcmpLt] at h1
    | cons y bs =>
      cases c with
      | nil => simp [strcmpLt] at h2
      | cons z cs => simp [strcmpLt]
  | cons x as ih =>
    intro b c h1 h2
    cases b with
    | nil => simp [strcmpLt] at h1
    | cons y bs =>
      cases c with
      | nil => simp [strcmpLt] at h2
      | cons z cs =>
        simp only [strcmpLt] at h1 h2 ⊢
        rcases Nat.lt_trichotomy x y with hxy | hxy | hxy
        · rcases Nat.lt_trichotomy y z with hyz | hyz | hyz
          · simp [show x < z from by omega]
          · subst hyz
            simp [hxy]
          · simp [show ¬ y < z from by omega, hyz] at h2
        · subst hxy
          simp [Nat.lt_irrefl] at h1
          rcases Nat.lt_trichotomy x z with hxz | hxz | hxz
          · simp [hxz]
          · subst hxz
            simp [Nat.lt_irrefl] at h2 ⊢
            exact ih h1 h2
          · simp [show ¬ x < z from by omega, hxz] at h2
        · simp [show ¬ x < y from by omega, hxy] at h1

theorem strcmpLt_total : ∀ {a b : List Nat},
    strcmpLt a b = false → strcmpLt b a = false → a = b := by
  intro a
  induction a with
  | nil =>
    intro b h1 _
    cases b with
    | nil => rfl
    | cons y bs => simp [strcmpLt] at h1
  | cons x as ih =>
    intro b h1 h2
    cases b with
    | nil => simp [strcmpLt] at h2
    | cons y bs =>
      simp only [strcmpLt] at h1 h2
      rcases Nat.lt_trichotomy x y with hxy | hxy | hxy
      · simp [hxy] at h1
      · subst hxy
        simp [Nat.lt_irrefl] at h1 h2
        rw [ih h1 h2]
      · simp [show ¬ x < y from by omega, hxy] at h2

theorem nameLe_trans {a b c : List Nat} (h1 : nameLe a b) (h2 : nameLe b c) :
    nameLe a c := by
  unfold nameLe at *
  cases hv : strcmpLt c a with
  | false => rfl
  | true =>
    exfalso
    cases hw : strcmpLt b c with
    | true =>
      have hba : strcmpLt b a = true := strcmpLt_trans hw hv
      rw [hba] at h1
      exact Bool.noConfusion h1
    | false =>
      have hcb : c = b := strcmpLt_total h2 hw
      subst hcb
      rw [hv] at h1
      exact Bool.noConfusion h1

theorem nameLe_of_not_lt {a b : List Nat} (h : strcmpLt a b = false) : nameLe b a := h

theorem nameLe_of_lt {a b : List Nat} (h : strcmpLt a b = true) : nameLe a b := by
  unfold nameLe
  cases hv : strcmpLt b a with
  | false => rfl
  | true =>
    exfalso
    have := strcmpLt_trans h hv
    rw [strcmpLt_irrefl] at this
    exact Bool.noConfusion this

/- ===== Merge and merge sort: permutation and sortedness ===== -/

theorem merge_perm : ∀ l1 l2 : List Node, List.Perm (merge l1 l2) (l1 ++ l2) := by
  intro l1 l2
  induction l1, l2 using merge.induct with
  | case1 l2 => simp [merge]
  | case2 a l1 => simp [merge]
  | case3 a l1 b l2 hlt ih =>
    rw [merge, if_pos hlt]
    simpa using List.Perm.cons a ih
  | case4 a l1 b l2 hlt ih =>
    rw [merge, if_neg hlt]
    exact (List.Perm.cons b ih).trans List.perm_middle.symm

theorem merge_sort_perm : ∀ l : List Node, List.Perm (merge_sort l) l := by
  intro l
  induction l using merge_sort.induct with
  | case1 l h => rw [merge_sort, if_pos h]
  | case2 l h ih1 ih2 =>
    rw [merge_sort, if_neg h]
    refine ((merge_perm _ _).trans ((List.Perm.append ih1 ih2).trans ?_))
    rw [List.take_append_drop]

theorem merge_pairwise : ∀ l1 l2 : List Node,
    List.Pairwise (fun a b => nameLe a.name b.name) l1 →
    List.Pairwise (fun a b => nameLe a.name b.name) l2 →
    List.Pairwise (fun a b => nameLe a.name b.name) (merge l1 l2) := by
  intro l1 l2
  induction l1, l2 using merge.induct with
  | case1 l2 => intro _ h2; simpa [merge] using h2
  | case2 a l1 => intro h1 _; simpa [merge] using h1
  | case3 a l1 b l2 hlt ih =>
    intro h1 h2
    rw [merge, if_pos hlt]
    rcases List.pairwise_cons.mp h1 with ⟨ha, h1'⟩
    refine List.pairwise_cons.mpr ⟨?_, ih h1' h2⟩
    intro x hx
    have hx' := (merge_perm l1 (b :: l2)).mem_iff.mp hx
    rcases List.mem_append.mp hx' with hxl | hxr
    · exact ha x hxl
    · rcases List.mem_cons.mp hxr with rfl | hxl2
      · exact nameLe_of_lt hlt
      · rcases List.pairwise_cons.mp h2 with ⟨hb, _⟩
        exact nameLe_trans (nameLe_of_lt hlt) (hb x hxl2)
  | case4 a l1 b l2 hlt ih =>
    intro h1 h2
    rw [merge, if_neg hlt]
    rcases List.pairwise_cons.mp h2 with ⟨hb, h2'⟩
    refine List.pairwise_cons.mpr ⟨?_, ih h1 h2'⟩
    intro x hx
    have hx' := (merge_perm (a :: l1) l2).mem_iff.mp hx
    have hba : nameLe b.name a.name := nameLe_of_not_lt (by simpa using hlt)
    rcases List.mem_append.mp hx' with hxl | hxr
    · rcases List.mem_cons.mp hxl with rfl | hxl1
      · exact hba
      · rcases List.pairwise_cons.mp h1 with ⟨ha, _⟩
        exact nameLe_trans hba (ha x hxl1)
    · exact hb x hxr

theorem merge_sort_pairwise : ∀ l : List Node,
    List.Pairwise (fun a b => nameLe a.name b.name) (merge_sort l) := by
  intro l
  induction l using merge_sort.induct with
  | case1 l h =>
    rw [merge_sort, if_pos h]
    match l, h with
    | [], _ => exact List.Pairwise.nil
    | [a], _ => simp
  | case2 l h ih1 ih2 =>
    rw [merge_sort, if_neg h]
    exact merge_pairwise _ _ ih1 ih2

theorem sortEach_eq_map : ∀ l : List Node, sortEach l = l.map sortChildren := by
  intro l
  induction l with
  | nil => simp [sortEach]
  | cons n rest ih =>
    cases n with
    | mk i e nm cs => simp [sortEach, sortChildren, sort_list, ih]

theorem sizeOf_children_lt {i : Nat} {e : Int} {nm : List Nat} {cs : List Node}
    {F : List Node} (hm : Node.mk i e nm cs ∈ F) : sizeOf cs < sizeOf F := by
  have h1 : sizeOf (Node.mk i e nm cs) < sizeOf F := List.sizeOf_lt_of_mem hm
  have h2 : sizeOf cs < sizeOf (Node.mk i e nm cs) := by
    simp [Node.mk.sizeOf_spec]
  omega

theorem allSorted_sort_list_aux : ∀ N : Nat, ∀ F : List Node,
    sizeOf F ≤ N → AllSortedF (sort_list F) := by
  intro N
  induction N with
  | zero =>
    intro F h
    exfalso
    cases F with
    | nil => simp at h
    | cons a l => simp at h
  | succ N ih =>
    intro F h
    refine AllSortedF.mk _ ((merge_sort_pairwise (sortEach F)).chain') ?_
    intro n hn
    have hn1 : n ∈ sortEach F := ((merge_sort_perm (sortEach F)).mem_iff).mp hn
    rw [sortEach_eq_map] at hn1
    rcases List.mem_map.mp hn1 with ⟨m, hm, rfl⟩
    cases m with
    | mk i e nm cs =>
      have hsz : sizeOf cs < sizeOf F := sizeOf_children_lt hm
      show AllSortedF (sort_list cs)
      exact ih cs (by omega)

/-- C6: after `sort_list` returns, every sibling list at every depth of
the forest (the root level included) is sorted — the names of
consecutive children are non-decreasing in the byte-wise lexicographic
order (`strcmp`). -/
theorem c6_sort_list_every_level_sorted (F : List Node) : AllSortedF (sort_list F) :=
  allSorted_sort_list_aux (sizeOf F) F le_rfl

theorem merge_cons_cons (a : Node) (l1 : List Node) (b : Node) (l2 : List Node) :
    merge (a :: l1) (b :: l2)
      = if strcmpLt a.name b.name then a :: merge l1 (b :: l2)
        else b :: merge (a :: l1) l2 := by
  rw [merge]

theorem merge_nil_right (a : Node) (l1 : List Node) : merge (a :: l1) [] = a :: l1 := by
  rw [merge]

theorem merge_nil_left (l2 : List Node) : merge [] l2 = l2 := by
  rw [merge]

theorem merge_sort_nil : merge_sort [] = [] := by
  rw [merge_sort]
  norm_num

theorem merge_sort_singleton (a : Node) : merge_sort [a] = [a] := by
  rw [merge_sort]
  norm_num

/-- C2 counterexample: two sibling leaves both named "a" (byte 97), at
original positions 0 and 1, come out of the level sorter in reversed
relative order — `merge` takes the right run's element on ties
(`strcmp(..) < 0` is false for equal names), so the sort is not stable. -/
theorem c2_counterexample :
    sort_list [Node.mk 0 (-1) [97] [], Node.mk 1 (-1) [97] []]
      = [Node.mk 1 (-1) [97] [], Node.mk 0 (-1) [97] []] := by
  simp [sort_list, sortEach, merge_sort, merge, strcmpLt, Node.name]

/-- C2 amended: on ties the merge step takes the element of the right
(original-order-later) run first: any two sibling nodes with equal
names are emitted by the level sorter in reversed relative order (shown
here for a two-node sibling list, with their subtrees sorted as usual). -/
theorem c2_amended_ties_reverse (i1 i2 : Nat) (e1 e2 : Int) (nm : List Nat)
    (cs1 cs2 : List Node) :
    sort_list [Node.mk i1 e1 nm cs1, Node.mk i2 e2 nm cs2]
      = [Node.mk i2 e2 nm (sort_list cs2), Node.mk i1 e1 nm (sort_list cs1)] := by
  have h1 : sortEach [Node.mk i1 e1 nm cs1, Node.mk i2 e2 nm cs2]
      = [Node.mk i1 e1 nm (sort_list cs1), Node.mk i2 e2 nm (sort_list cs2)] := by
    simp [sortEach, sort_list]
  rw [sort_list, h1, merge_sort]
  norm_num [merge_sort_singleton]
  rw [merge_cons_cons]
  simp [Node.name, strcmpLt_irrefl, merge_nil_right]

/- ===== C5: premature GroupEnd ===== -/

/-- C5: on a GroupEnd while no folder is open the C code runs
`previous = parent; previous->item->end_index = i;` with
`parent == NULL` — a NULL-pointer dereference, not a recoverable
error signal.  Evaluated at the failing input `[GroupEnd]`: the pass
dies (modelled `none`); no error value reaches the caller. -/
theorem c5_premature_end_null_deref :
    buildForest [Entry.groupEnd] = none
      ∧ sort_playlists (fun _ => 0) [Entry.groupEnd] = none :=
  ⟨rfl, rfl⟩

/- ===== C9: the move loop's emissions ===== -/

theorem length_filterMap_ite {α β : Type} (p : α → Prop) [DecidablePred p] (g : α → β) :
    ∀ l : List α,
      (l.filterMap (fun a => if p a then none else some (g a))).length
        = (l.filter (fun a => decide (¬ p a))).length := by
  intro l
  induction l with
  | nil => rfl
  | cons a l ih =>
    by_cases h : p a
    · simp [List.filterMap_cons, List.filter_cons, h, ih]
    · simp [List.filterMap_cons, List.filter_cons, h, ih]

theorem moveLoopAux_filterMap (r : List Int) :
    ∀ fuel i, moveLoopAux (workingAt r i) i fuel
      = (List.range' i fuel).filterMap (fun (j : Nat) =>
          if (j : Int) = (workingAt r j).getD j 0 then none
          else some ((workingAt r j).getD j 0, (j : Int))) := by
  intro fuel
  induction fuel with
  | zero => intro i; rfl
  | succ f ih =>
    intro i
    rw [List.range'_succ, List.filterMap_cons, moveLoopAux]
    by_cases h : (i : Int) = (workingAt r i).getD i 0
    · rw [if_pos h, if_pos h]
      have hw : workingAt r (i + 1) = workingAt r i := by
        rw [workingAt, if_pos h]
      rw [← hw, ih]
    · rw [if_neg h, if_neg h]
      have hw : workingAt r (i + 1) = recalculate_indexes (workingAt r i) i := by
        rw [workingAt, if_neg h]
      rw [← hw, ih]

/-- C9: the move loop emits exactly one move for each destination `i`
whose `reorder` entry, at the moment slot `i` is processed
(`workingAt r i`), differs from `i` — that move is `(reorder[i], i)` —
and emits nothing for a destination already holding `i`; consequently
the number of emitted moves equals the number of mismatched slots. -/
theorem c9_move_loop_emissions (r : List Int) :
    move_list r = (List.range r.length).filterMap (fun (i : Nat) =>
        if (i : Int) = (workingAt r i).getD i 0 then none
        else some ((workingAt r i).getD i 0, (i : Int)))
    ∧ (move_list r).length
        = ((List.range r.length).filter
            (fun (i : Nat) => decide (¬ (i : Int) = (workingAt r i).getD i 0))).length := by
  have h0 : move_list r = moveLoopAux (workingAt r 0) 0 r.length := rfl
  have h1 := moveLoopAux_filterMap r r.length 0
  rw [← List.range_eq_range'] at h1
  refine ⟨h0.trans h1, ?_⟩
  rw [h0.trans h1]
  exact length_filterMap_ite _ _ _

/- ===== C8: not-loaded reporting ===== -/

theorem runBuild_notLoaded : ∀ (E : List Entry) (pos : Nat) (s s2 : BuildState),
    runBuild E pos s = some s2 → s2.notLoaded = s.notLoaded + countUnloaded E := by
  intro E
  induction E with
  | nil =>
    intro pos s s2 h
    simp [runBuild] at h
    subst h
    simp [countUnloaded]
  | cons e es ih =>
    intro pos s s2 h
    cases e with
    | item nm loaded =>
      cases loaded with
      | true =>
        simp only [runBuild, buildStep] at h
        have := ih (pos + 1) _ _ h
        simpa [countUnloaded, List.countP_cons] using this
      | false =>
        simp only [runBuild, buildStep] at h
        have := ih (pos + 1) _ _ h
        simp [countUnloaded, List.countP_cons] at this ⊢
        omega
    | groupStart nm =>
      simp only [runBuild, buildStep] at h
      have := ih (pos + 1) _ _ h
      simpa [countUnloaded, List.countP_cons] using this
    | groupEnd =>
      simp only [runBuild, buildStep] at h
      cases hs : s.stack with
      | nil => rw [hs] at h; exact absurd h (by simp)
      | cons top rest =>
        rw [hs] at h
        rcases top with ⟨saved, gi, gnm⟩
        have := ih (pos + 1) _ _ h
        simpa [countUnloaded, List.countP_cons] using this
    | placeholder =>
      simp only [runBuild, buildStep] at h
      have := ih (pos + 1) _ _ h
      simpa [countUnloaded, List.countP_cons] using this

theorem buildForest_notLoaded {E : List Entry} {F : List Node} {k : Nat}
    (h : buildForest E = some (F, k)) : k = countUnloaded E := by
  unfold buildForest at h
  cases hr : runBuild E 0 ⟨[], [], 0⟩ with
  | none => rw [hr] at h; exact absurd h (by simp)
  | some s =>
    rw [hr] at h
    have := runBuild_notLoaded E 0 _ _ hr
    simp at h
    rcases h with ⟨-, hk⟩
    simp at this
    omega

/-- C8 counterexample: the input `[GroupEnd, unloaded item]` has an item
that reports not loaded, yet the pass does not abort with the NotReady
report — the builder crashes on the premature GroupEnd first (the
`not_loaded` check only runs after the whole building loop). -/
theorem c8_counterexample :
    0 < countUnloaded [Entry.groupEnd, Entry.item [97] false]
      ∧ sort_playlists (fun _ => 0) [Entry.groupEnd, Entry.item [97] false] = none :=
  ⟨by decide, rfl⟩

/-- C8 amended: provided the building loop does not crash (no GroupEnd
while no folder is open), an input with at least one unloaded item makes
`sort_playlists` stop right after the loop, printing the count of
unloaded items as the error report; no move call and no other output is
issued. -/
theorem c8_amended_not_ready (junk : Nat → Int) (E : List Entry) (F : List Node) (k : Nat)
    (h : buildForest E = some (F, k)) (hk : 0 < countUnloaded E) :
    sort_playlists junk E = some [OutEvent.reportNotLoaded (countUnloaded E)] := by
  have hkc := buildForest_notLoaded h
  unfold sort_playlists
  rw [h]
  subst hkc
  simp [hk]

/-- C8 witness: a concrete run with one unloaded item. -/
theorem c8_witness :
    buildForest [Entry.item [97] false] = some ([], 1)
      ∧ 0 < countUnloaded [Entry.item [97] false]
      ∧ sort_playlists (fun _ => 0) [Entry.item [97] false]
          = some [OutEvent.reportNotLoaded 1] :=
  ⟨rfl, by decide,
    c8_amended_not_ready (fun _ => 0) [Entry.item [97] false] [] 1 rfl (by decide)⟩

/- ===== Builder correctness: Denotes characterises runBuild ===== -/

theorem runBuild_append : ∀ (X Y : List Entry) (pos : Nat) (s : BuildState),
    runBuild (X ++ Y) pos s
      = match runBuild X pos s with
        | none => none
        | some s2 => runBuild Y (pos + X.length) s2 := by
  intro X
  induction X with
  | nil => intro Y pos s; simp [runBuild]
  | cons e es ih =>
    intro Y pos s
    rw [List.cons_append]
    simp only [runBuild]
    cases h : buildStep s pos e with
    | none => rfl
    | some s2 =>
      dsimp only
      rw [ih Y (pos + 1) s2]
      have harith : pos + 1 + es.length = pos + (es.length + 1) := by omega
      cases runBuild es (pos + 1) s2 with
      | none => rfl
      | some s3 => simp [harith, List.length_cons]

theorem denotes_runBuild {E : List Entry} {pos : Nat} {F : List Node} {k : Nat}
    (h : Denotes E pos F k) :
    ∀ s : BuildState, runBuild E pos s = some ⟨s.stack, s.current ++ F, s.notLoaded + k⟩ := by
  induction h with
  | nil pos => intro s; simp [runBuild]
  | itemT nm es pos F k hd ih =>
    intro s
    simp only [runBuild, buildStep, reduceIte]
    rw [ih ⟨s.stack, s.current ++ [Node.mk pos (-1) nm []], s.notLoaded⟩]
    simp
  | itemF nm es pos F k hd ih =>
    intro s
    simp only [runBuild, buildStep, Bool.false_eq_true, reduceIte]
    rw [ih ⟨s.stack, s.current, s.notLoaded + 1⟩]
    simp
    omega
  | ph es pos F k hd ih =>
    intro s
    simp only [runBuild, buildStep]
    exact ih s
  | group nm inner es pos C F k1 k2 hinner hes ihinner ihes =>
    intro s
    simp only [runBuild, buildStep]
    rw [runBuild_append]
    rw [ihinner ⟨(s.current, pos, nm) :: s.stack, [], s.notLoaded⟩]
    simp only [runBuild, buildStep]
    rw [ihes ⟨s.stack,
         s.current ++ [Node.mk pos ((pos + 1 + inner.length : Nat) : Int) nm ([] ++ C)],
         s.notLoaded + k1⟩]
    simp
    omega

theorem denotes_buildForest {E : List Entry} {F : List Node} {k : Nat}
    (h : Denotes E 0 F k) : buildForest E = some (F, k) := by
  unfold buildForest
  rw [denotes_runBuild h ⟨[], [], 0⟩]
  simp [closeOpen]

/- ===== Balanced inputs denote forests (Dyck-style splitting) ===== -/

theorem runDepth_append : ∀ (X Y : List Entry) (d : Nat),
    runDepth d (X ++ Y)
      = match runDepth d X with
        | none => none
        | some d2 => runDepth d2 Y := by
  intro X
  induction X with
  | nil => intro Y d; simp [runDepth]
  | cons e es ih =>
    intro Y d
    cases e with
    | item nm loaded => rw [List.cons_append]; simp only [runDepth]; exact ih Y d
    | groupStart nm => rw [List.cons_append]; simp only [runDepth]; exact ih Y (d + 1)
    | groupEnd =>
      rw [List.cons_append]
      simp only [runDepth]
      cases d with
      | zero => rfl
      | succ d' => exact ih Y d'
    | placeholder => rw [List.cons_append]; simp only [runDepth]; exact ih Y d

theorem runDepth_mono : ∀ (E : List Entry) (d c d2 : Nat),
    runDepth d E = some d2 → runDepth (d + c) E = some (d2 + c) := by
  intro E
  induction E with
  | nil =>
    intro d c d2 h
    simp [runDepth] at h ⊢
    omega
  | cons e es ih =>
    intro d c d2 h
    cases e with
    | item nm loaded => simp only [runDepth] at h ⊢; exact ih d c d2 h
    | groupStart nm =>
      simp only [runDepth] at h ⊢
      have := ih (d + 1) c d2 h
      have harith : d + c + 1 = d + 1 + c := by omega
      rw [harith]
      exact this
    | groupEnd =>
      simp only [runDepth] at h ⊢
      cases d with
      | zero => exact absurd h (by simp)
      | succ d' =>
        have := ih d' c d2 h
        have harith : d' + 1 + c = (d' + c) + 1 := by omega
        rw [harith]
        exact this
    | placeholder => simp only [runDepth] at h ⊢; exact ih d c d2 h

theorem runDepth_split : ∀ (n : Nat) (E : List Entry) (d : Nat),
    E.length ≤ n → runDepth (d + 1) E = some 0 →
    ∃ A B, E = A ++ Entry.groupEnd :: B
      ∧ runDepth 0 A = some 0 ∧ runDepth d B = some 0 := by
  intro n
  induction n using Nat.strong_induction_on with
  | _ n ih =>
    intro E d hlen h
    cases E with
    | nil => simp [runDepth] at h
    | cons e es =>
      cases e with
      | item nm loaded =>
        simp only [runDepth] at h
        have hlt : es.length < n := by simp at hlen; omega
        rcases ih es.length hlt es d le_rfl h with ⟨A, B, heq, hA, hB⟩
        refine ⟨Entry.item nm loaded :: A, B, by rw [heq, List.cons_append], ?_, hB⟩
        simp only [runDepth]
        exact hA
      | placeholder =>
        simp only [runDepth] at h
        have hlt : es.length < n := by simp at hlen; omega
        rcases ih es.length hlt es d le_rfl h with ⟨A, B, heq, hA, hB⟩
        refine ⟨Entry.placeholder :: A, B, by rw [heq, List.cons_append], ?_, hB⟩
        simp only [runDepth]
        exact hA
      | groupEnd =>
        simp only [runDepth] at h
        exact ⟨[], es, rfl, rfl, h⟩
      | groupStart nm =>
        simp only [runDepth] at h
        have hlt : es.length < n := by simp at hlen; omega
        rcases ih es.length hlt es (d + 1) le_rfl h with ⟨A, B, heq, hA, hB⟩
        have hBlen : B.length < n := by
          have : es.length = A.length + 1 + B.length := by
            rw [heq]; simp; omega
          omega
        rcases ih B.length hBlen B d le_rfl hB with ⟨A2, B2, heq2, hA2, hB2⟩
        refine ⟨Entry.groupStart nm :: (A ++ Entry.groupEnd :: A2), B2, ?_, ?_, hB2⟩
        · rw [heq, heq2]
          simp
        · simp only [runDepth]
          rw [runDepth_append]
          have : runDepth 1 A = some 1 := by
            have := runDepth_mono A 0 1 0 hA
            simpa using this
          rw [this]
          simp only [runDepth]
          exact hA2

theorem balanced_denotes_aux : ∀ (n : Nat) (E : List Entry), E.length ≤ n →
    runDepth 0 E = some 0 → ∀ pos, ∃ F k, Denotes E pos F k := by
  intro n
  induction n using Nat.strong_induction_on with
  | _ n ih =>
    intro E hlen h pos
    cases E with
    | nil => exact ⟨[], 0, Denotes.nil pos⟩
    | cons e es =>
      cases e with
      | item nm loaded =>
        simp only [runDepth] at h
        have hlt : es.length < n := by simp at hlen; omega
        rcases ih es.length hlt es le_rfl h (pos + 1) with ⟨F, k, hd⟩
        cases loaded with
        | true => exact ⟨_, _, Denotes.itemT nm es pos F k hd⟩
        | false => exact ⟨_, _, Denotes.itemF nm es pos F k hd⟩
      | placeholder =>
        simp only [runDepth] at h
        have hlt : es.length < n := by simp at hlen; omega
        rcases ih es.length hlt es le_rfl h (pos + 1) with ⟨F, k, hd⟩
        exact ⟨_, _, Denotes.ph es pos F k hd⟩
      | groupEnd => simp [runDepth] at h
      | groupStart nm =>
        simp only [runDepth] at h
        have hlt : es.length < n := by simp at hlen; omega
        rcases runDepth_split es.length es 0 le_rfl h with ⟨A, B, heq, hA, hB⟩
        have hAlen : A.length < n := by
          have : es.length = A.length + 1 + B.length := by rw [heq]; simp; omega
          omega
        have hBlen : B.length < n := by
          have : es.length = A.length + 1 + B.length := by rw [heq]; simp; omega
          omega
        rcases ih A.length hAlen A le_rfl hA (pos + 1) with ⟨C, k1, hdA⟩
        rcases ih B.length hBlen B le_rfl hB (pos + 1 + A.length + 1) with ⟨F, k2, hdB⟩
        subst heq
        exact ⟨_, _, Denotes.group nm A B pos C F k1 k2 hdA hdB⟩

theorem balanced_denotes {E : List Entry} (h : balanced E = true) :
    ∀ pos, ∃ F k, Denotes E pos F k := by
  have h' : runDepth 0 E = some 0 := by
    unfold balanced at h
    exact beq_iff_eq.mp h
  exact balanced_denotes_aux E.length E le_rfl h'

/- ===== Flattening: permutation properties ===== -/

theorem flatten_list_cons (n : Node) (rest : List Node) :
    flatten_list (n :: rest) = flattenNode n ++ flatten_list rest := by
  cases n with
  | mk i e nm cs =>
    cases cs with
    | nil => simp [flatten_list, flattenNode]
    | cons c cs' => simp [flatten_list, flattenNode]

theorem flatten_list_eq_flatMap : ∀ l : List Node, flatten_list l = l.flatMap flattenNode := by
  intro l
  induction l with
  | nil => simp [flatten_list]
  | cons n rest ih => rw [flatten_list_cons, ih, List.flatMap_cons]

theorem sort_list_nil : sort_list [] = [] := by
  rw [sort_list]
  simp [sortEach, merge_sort_nil]

theorem sort_list_perm (l : List Node) : List.Perm (sort_list l) (l.map sortChildren) := by
  rw [sort_list, ← sortEach_eq_map]
  exact merge_sort_perm (sortEach l)

theorem sort_list_length (l : List Node) : (sort_list l).length = l.length := by
  have := (sort_list_perm l).length_eq
  simpa using this

theorem flatten_perm_congr {l1 l2 : List Node} (h : List.Perm l1 l2) :
    List.Perm (flatten_list l1) (flatten_list l2) := by
  rw [flatten_list_eq_flatMap, flatten_list_eq_flatMap]
  exact List.Perm.flatMap_right flattenNode h

theorem flatten_sort_perm_aux : ∀ (N : Nat) (F : List Node), sizeOf F ≤ N →
    List.Perm (flatten_list (sort_list F)) (flatten_list F) := by
  intro N
  induction N with
  | zero =>
    intro F h
    exfalso
    cases F with
    | nil => simp at h
    | cons a l => simp at h
  | succ N ih =>
    intro F h
    refine (flatten_perm_congr (sort_list_perm F)).trans ?_
    rw [flatten_list_eq_flatMap, List.flatMap_map, flatten_list_eq_flatMap]
    refine List.Perm.flatMap_left F ?_
    intro n hn
    cases n with
    | mk i e nm cs =>
      show List.Perm (flattenNode (Node.mk i e nm (sort_list cs))) (flattenNode (Node.mk i e nm cs))
      cases hcs : cs with
      | nil =>
        subst hcs
        rw [sort_list_nil]
      | cons c cs' =>
        subst hcs
        have hne : sort_list (c :: cs') ≠ [] := by
          intro hv
          have := sort_list_length (c :: cs')
          rw [hv] at this
          simp at this
        have h1 : (sort_list (c :: cs')).isEmpty = false := List.isEmpty_eq_false.mpr hne
        simp only [flattenNode, h1, List.isEmpty_cons, Bool.false_eq_true, if_false]
        have hsz : sizeOf (c :: cs') < sizeOf F := sizeOf_children_lt hn
        have ihcs := ih (c :: cs') (by omega)
        exact List.Perm.cons _ (List.Perm.append_right [e] ihcs)

theorem flatten_sort_perm (F : List Node) :
    List.Perm (flatten_list (sort_list F)) (flatten_list F) :=
  flatten_sort_perm_aux (sizeOf F) F le_rfl

theorem nonPhPos_append : ∀ (X Y : List Entry) (pos : Nat),
    nonPhPos (X ++ Y) pos = nonPhPos X pos ++ nonPhPos Y (pos + X.length) := by
  intro X
  induction X with
  | nil => intro Y pos; simp [nonPhPos]
  | cons e es ih =>
    intro Y pos
    have harith : pos + 1 + es.length = pos + (es.length + 1) := by omega
    cases e with
    | item nm loaded => simp [nonPhPos, ih, harith]
    | groupStart nm => simp [nonPhPos, ih, harith]
    | groupEnd => simp [nonPhPos, ih, harith]
    | placeholder => simp [nonPhPos, ih, harith]

theorem intOfNat_ne_negOne (n : Nat) : ((n : Nat) : Int) ≠ -1 := by omega

theorem denotes_flatten_perm : ∀ {E : List Entry} {pos : Nat} {F : List Node} {k : Nat},
    Denotes E pos F k → k = 0 → noEmptyGroups F = true →
    List.Perm (flatten_list F) (nonPhPos E pos) := by
  intro E pos F k hd
  induction hd with
  | nil pos => intro _ _; simp [flatten_list, nonPhPos]
  | itemT nm es pos F k hdes ih =>
    intro hk hg
    simp only [noEmptyGroups] at hg
    simp only [Bool.and_eq_true] at hg
    rw [flatten_list_cons]
    show List.Perm (((pos : Nat) : Int) :: ([] ++ flatten_list F)) (nonPhPos (Entry.item nm true :: es) pos)
    simp only [nonPhPos, List.nil_append]
    exact List.Perm.cons _ (ih hk hg.2)
  | itemF nm es pos F k hdes ih =>
    intro hk _
    exact absurd hk (by omega)
  | ph es pos F k hdes ih =>
    intro hk hg
    simp only [nonPhPos]
    exact ih hk hg
  | group nm inner es pos C F k1 k2 hdC hdF ihC ihF =>
    intro hk hg
    have hk1 : k1 = 0 := by omega
    have hk2 : k2 = 0 := by omega
    simp only [noEmptyGroups, Bool.and_eq_true, Bool.or_eq_true] at hg
    rcases hg with ⟨⟨hhead, hgC⟩, hgF⟩
    have hCne : C ≠ [] := by
      rcases hhead with h1 | h2
      · exfalso
        have := intOfNat_ne_negOne (pos + 1 + inner.length)
        exact this (by exact_mod_cast beq_iff_eq.mp h1)
      · intro hv
        rw [hv] at h2
        simp at h2
    rw [flatten_list_cons]
    have hCf : (C.isEmpty) = false := List.isEmpty_eq_false.mpr hCne
    simp only [flattenNode, hCf, Bool.false_eq_true, if_false]
    simp only [nonPhPos]
    rw [nonPhPos_append]
    simp only [nonPhPos]
    refine List.Perm.cons _ ?_
    have e1 := ihC hk1 hgC
    have e2 := ihF hk2 hgF
    have hassoc : (flatten_list C ++ [((pos + 1 + inner.length : Nat) : Int)]) ++ flatten_list F
        = flatten_list C ++ ((pos + 1 + inner.length : Nat) : Int) :: flatten_list F := by
      rw [List.append_assoc]
      rfl
    simp only [List.append_eq]
    rw [hassoc]
    exact List.Perm.append e1 (List.Perm.cons _ e2)

theorem balanced_build_denotes {E : List Entry} {F : List Node}
    (hb : balanced E = true) (h : buildForest E = some (F, 0)) : Denotes E 0 F 0 := by
  rcases balanced_denotes hb 0 with ⟨F2, k2, hd⟩
  have hbf := denotes_buildForest hd
  rw [h] at hbf
  have hpair : (F, 0) = (F2, k2) := by
    have := Option.some.inj hbf.symm
    exact this.symm
  have hF : F2 = F := (congrArg Prod.fst hpair).symm
  have hk : k2 = 0 := (congrArg Prod.snd hpair).symm
  rw [hF, hk] at hd
  exact hd

/-- C4 counterexample: the balanced, fully loaded, two-entry input
`[GroupStart "A", GroupEnd]` builds a folder node with an empty child
list; `_flatten_list` checks `children != NULL` before emitting the
`end_index`, so the GroupEnd position 1 never reaches the output —
the flattened sequence is `[0]`, not a permutation of the
non-placeholder positions `[0, 1]`. -/
theorem c4_counterexample :
    balanced [Entry.groupStart [65], Entry.groupEnd] = true
      ∧ fullyLoadedB [Entry.groupStart [65], Entry.groupEnd] = true
      ∧ buildForest [Entry.groupStart [65], Entry.groupEnd] = some ([Node.mk 0 1 [65] []], 0)
      ∧ flatten_list (sort_list [Node.mk 0 1 [65] []]) = [0]
      ∧ nonPhPos [Entry.groupStart [65], Entry.groupEnd] 0 = [0, 1]
      ∧ ¬ (1 : Int) ∈ flatten_list (sort_list [Node.mk 0 1 [65] []]) := by
  have hfl : flatten_list (sort_list [Node.mk 0 1 [65] []]) = [0] := by
    rw [sort_list]
    simp [sortEach, merge_sort_nil, merge_sort_singleton, flatten_list]
  refine ⟨rfl, rfl, rfl, hfl, rfl, ?_⟩
  rw [hfl]
  decide

/-- C4 amended: for every balanced, fully loaded input whose built
forest contains no folder with an empty child list, the sequence
written by `flatten_list` is a permutation of exactly the
non-placeholder original positions (each item, folder-start and
folder-end position exactly once, no placeholder position).  A folder
whose body holds no item or folder (an "empty group") loses its end
position, so it must be excluded. -/
theorem c4_amended_flatten_permutation (E : List Entry) (F : List Node)
    (hb : balanced E = true) (hl : fullyLoadedB E = true)
    (h : buildForest E = some (F, 0)) (hg : noEmptyGroups F = true) :
    List.Perm (flatten_list (sort_list F)) (nonPhPos E 0) := by
  have hd := balanced_build_denotes hb h
  exact (flatten_sort_perm F).trans (denotes_flatten_perm hd rfl hg)

/-- C4 witness: a concrete balanced input with a placeholder and a
folder; the flattened output of the sorted forest is a permutation of
the non-placeholder positions. -/
theorem c4_witness :
    balanced [Entry.item [97] true, Entry.placeholder, Entry.groupStart [66],
        Entry.item [99] true, Entry.groupEnd] = true
      ∧ fullyLoadedB [Entry.item [97] true, Entry.placeholder, Entry.groupStart [66],
          Entry.item [99] true, Entry.groupEnd] = true
      ∧ buildForest [Entry.item [97] true, Entry.placeholder, Entry.groupStart [66],
          Entry.item [99] true, Entry.groupEnd]
          = some ([Node.mk 0 (-1) [97] [], Node.mk 2 4 [66] [Node.mk 3 (-1) [99] []]], 0)
      ∧ noEmptyGroups [Node.mk 0 (-1) [97] [], Node.mk 2 4 [66] [Node.mk 3 (-1) [99] []]] = true
      ∧ List.Perm
          (flatten_list (sort_list
            [Node.mk 0 (-1) [97] [], Node.mk 2 4 [66] [Node.mk 3 (-1) [99] []]]))
          (nonPhPos [Entry.item [97] true, Entry.placeholder, Entry.groupStart [66],
            Entry.item [99] true, Entry.groupEnd] 0) := by
  refine ⟨rfl, rfl, rfl, ?_, ?_⟩
  · simp [noEmptyGroups]
  · exact c4_amended_flatten_permutation _ _ rfl rfl rfl (by simp [noEmptyGroups])

/- ===== C7: bracket structure of the flattened output ===== -/

/-- Contiguous-subsegment relation: `x` occurs as one contiguous block
inside `y`. -/
def SubSeg (x y : List Int) : Prop := ∃ u v, y = u ++ x ++ v

theorem subseg_self (x : List Int) : SubSeg x x := ⟨[], [], by simp⟩

theorem subseg_extend {x y : List Int} (h : SubSeg x y) (a b : List Int) :
    SubSeg x (a ++ y ++ b) := by
  rcases h with ⟨u, v, rfl⟩
  exact ⟨a ++ u, v ++ b, by simp⟩

theorem subseg_extend_left {x y : List Int} (h : SubSeg x y) (a : List Int) :
    SubSeg x (a ++ y) := by
  have := subseg_extend h a []
  simpa using this

theorem subseg_extend_right {x y : List Int} (h : SubSeg x y) (b : List Int) :
    SubSeg x (y ++ b) := by
  have := subseg_extend h [] b
  simpa using this

theorem allNodes_nil : allNodes [] = [] := by simp [allNodes]

theorem allNodes_cons (i : Nat) (e : Int) (nm : List Nat) (cs rest : List Node) :
    allNodes (Node.mk i e nm cs :: rest)
      = Node.mk i e nm cs :: (allNodes cs ++ allNodes rest) := by
  simp [allNodes]

theorem flattenNode_block (i : Nat) (e : Int) (nm : List Nat) (c : Node) (cs : List Node) :
    flattenNode (Node.mk i e nm (c :: cs))
      = ((i : Nat) : Int) :: (flatten_list (c :: cs) ++ [e]) := by
  simp [flattenNode]

theorem block_subseg_aux : ∀ (N : Nat) (F : List Node), sizeOf F ≤ N →
    ∀ g ∈ allNodes F, SubSeg (flattenNode g) (flatten_list F) := by
  intro N
  induction N with
  | zero =>
    intro F h
    exfalso
    cases F with
    | nil => simp at h
    | cons a l => simp at h
  | succ N ih =>
    intro F hsz g hg
    cases F with
    | nil => rw [allNodes_nil] at hg; simp at hg
    | cons n rest =>
      cases n with
      | mk i e nm cs =>
        rw [allNodes_cons] at hg
        have hszc : sizeOf cs ≤ N := by
          have : sizeOf cs < sizeOf (Node.mk i e nm cs :: rest) :=
            sizeOf_children_lt (List.mem_cons_self _ _)
          omega
        have hszr : sizeOf rest ≤ N := by
          have : sizeOf rest < sizeOf (Node.mk i e nm cs :: rest) := by
            simp
          omega
        rw [flatten_list_cons]
        rcases List.mem_cons.mp hg with rfl | hg2
        · exact subseg_extend_right (subseg_self _) _
        · rcases List.mem_append.mp hg2 with hgc | hgr
          · have hsub := ih cs hszc g hgc
            have hcsne : cs ≠ [] := by
              intro hv
              rw [hv, allNodes_nil] at hgc
              simp at hgc
            have hcf : cs.isEmpty = false := List.isEmpty_eq_false.mpr hcsne
            rw [show flattenNode (Node.mk i e nm cs)
                  = ((i : Nat) : Int) :: (flatten_list cs ++ [e]) from by
                simp [flattenNode, hcf]]
            rcases hsub with ⟨u, v, huv⟩
            rw [huv]
            exact ⟨((i : Nat) : Int) :: u, v ++ [e] ++ flatten_list rest, by simp⟩
          · have hsub := ih rest hszr g hgr
            exact subseg_extend_left hsub _

theorem block_subseg {F : List Node} {g : Node} (hg : g ∈ allNodes F) :
    SubSeg (flattenNode g) (flatten_list F) :=
  block_subseg_aux (sizeOf F) F le_rfl g hg

/-- The blocks of two folder nodes nest (one inside the other's
subtree) or occupy disjoint stretches of the flattened output. -/
def NestedOrDisjoint (F : List Node) (g1 g2 : Node) : Prop :=
  SubSeg (flattenNode g2) (flatten_list g1.children)
  ∨ SubSeg (flattenNode g1) (flatten_list g2.children)
  ∨ ∃ X Y, flatten_list F = X ++ Y ∧
      ((SubSeg (flattenNode g1) X ∧ SubSeg (flattenNode g2) Y)
       ∨ (SubSeg (flattenNode g2) X ∧ SubSeg (flattenNode g1) Y))

theorem allNodes_ne_nil {g : Node} {cs : List Node} (hg : g ∈ allNodes cs) : cs ≠ [] := by
  intro hv
  rw [hv, allNodes_nil] at hg
  simp at hg

theorem subseg_into_flattenNode {i : Nat} {e : Int} {nm : List Nat} {cs : List Node} {g : Node}
    (hg : g ∈ allNodes cs) :
    SubSeg (flattenNode g) (flattenNode (Node.mk i e nm cs)) := by
  have hcs := allNodes_ne_nil hg
  have hcf : cs.isEmpty = false := List.isEmpty_eq_false.mpr hcs
  rw [show flattenNode (Node.mk i e nm cs)
        = ((i : Nat) : Int) :: (flatten_list cs ++ [e]) from by simp [flattenNode, hcf]]
  rcases block_subseg hg with ⟨u, v, huv⟩
  rw [huv]
  exact ⟨((i : Nat) : Int) :: u, v ++ [e], by simp⟩

theorem flattenNode_ne_nil (g : Node) : flattenNode g ≠ [] := by
  cases g with
  | mk i e nm cs => simp [flattenNode]

theorem subseg_flattenNode_nil {g : Node} (h : SubSeg (flattenNode g) []) : False := by
  rcases h with ⟨u, v, huv⟩
  rw [List.append_assoc] at huv
  rcases List.append_eq_nil.mp huv.symm with ⟨rfl, h2⟩
  rcases List.append_eq_nil.mp h2 with ⟨h3, -⟩
  exact flattenNode_ne_nil g h3

theorem nod_lift_children {i : Nat} {e : Int} {nm : List Nat} {cs rest : List Node}
    {g1 g2 : Node} (h : NestedOrDisjoint cs g1 g2) :
    NestedOrDisjoint (Node.mk i e nm cs :: rest) g1 g2 := by
  rcases h with h1 | h2 | ⟨X, Y, hXY, hcase⟩
  · exact Or.inl h1
  · exact Or.inr (Or.inl h2)
  · refine Or.inr (Or.inr ?_)
    by_cases hcs : cs = []
    · subst hcs
      exfalso
      simp [flatten_list] at hXY
      rcases hXY with ⟨rfl, rfl⟩
      rcases hcase with ⟨ha, -⟩ | ⟨ha, -⟩
      · exact subseg_flattenNode_nil ha
      · exact subseg_flattenNode_nil ha
    · have hcf : cs.isEmpty = false := List.isEmpty_eq_false.mpr hcs
      have hfl : flatten_list (Node.mk i e nm cs :: rest)
          = (((i : Nat) : Int) :: X) ++ (Y ++ [e] ++ flatten_list rest) := by
        rw [flatten_list_cons]
        rw [show flattenNode (Node.mk i e nm cs)
              = ((i : Nat) : Int) :: (flatten_list cs ++ [e]) from by simp [flattenNode, hcf]]
        rw [hXY]
        simp
      refine ⟨((i : Nat) : Int) :: X, Y ++ [e] ++ flatten_list rest, hfl, ?_⟩
      rcases hcase with ⟨ha, hb⟩ | ⟨ha, hb⟩
      · refine Or.inl ⟨?_, ?_⟩
        · have := subseg_extend ha [((i : Nat) : Int)] []
          simpa using this
        · exact subseg_extend_right (subseg_extend_right hb [e]) _
      · refine Or.inr ⟨?_, ?_⟩
        · have := subseg_extend ha [((i : Nat) : Int)] []
          simpa using this
        · exact subseg_extend_right (subseg_extend_right hb [e]) _

theorem nod_lift_rest {n : Node} {rest : List Node} {g1 g2 : Node}
    (h : NestedOrDisjoint rest g1 g2) : NestedOrDisjoint (n :: rest) g1 g2 := by
  rcases h with h1 | h2 | ⟨X, Y, hXY, hcase⟩
  · exact Or.inl h1
  · exact Or.inr (Or.inl h2)
  · refine Or.inr (Or.inr ⟨flattenNode n ++ X, Y, ?_, ?_⟩)
    · rw [flatten_list_cons, hXY, List.append_assoc]
    · rcases hcase with ⟨ha, hb⟩ | ⟨ha, hb⟩
      · exact Or.inl ⟨subseg_extend_left ha _, hb⟩
      · exact Or.inr ⟨subseg_extend_left ha _, hb⟩

theorem blocks_dichotomy_aux : ∀ (N : Nat) (F : List Node), sizeOf F ≤ N →
    ∀ g1 ∈ allNodes F, ∀ g2 ∈ allNodes F, g1 ≠ g2 → NestedOrDisjoint F g1 g2 := by
  intro N
  induction N with
  | zero =>
    intro F h
    exfalso
    cases F with
    | nil => simp at h
    | cons a l => simp at h
  | succ N ih =>
    intro F hsz g1 hg1 g2 hg2 hne
    cases F with
    | nil => rw [allNodes_nil] at hg1; simp at hg1
    | cons n rest =>
      cases n with
      | mk i e nm cs =>
        have hszc : sizeOf cs ≤ N := by
          have : sizeOf cs < sizeOf (Node.mk i e nm cs :: rest) :=
            sizeOf_children_lt (List.mem_cons_self _ _)
          omega
        have hszr : sizeOf rest ≤ N := by
          have : sizeOf rest < sizeOf (Node.mk i e nm cs :: rest) := by simp
          omega
        rw [allNodes_cons] at hg1 hg2
        rcases List.mem_cons.mp hg1 with rfl | hg1'
        · -- g1 is the head node
          rcases List.mem_cons.mp hg2 with rfl | hg2'
          · exact absurd rfl hne
          · rcases List.mem_append.mp hg2' with hgc | hgr
            · -- g2 inside the head's subtree
              refine Or.inl ?_
              show SubSeg (flattenNode g2) (flatten_list (Node.mk i e nm cs).children)
              rw [show (Node.mk i e nm cs).children = cs from rfl]
              exact block_subseg hgc
            · -- disjoint: head block then the rest
              refine Or.inr (Or.inr ⟨flattenNode (Node.mk i e nm cs), flatten_list rest,
                flatten_list_cons _ _, Or.inl ⟨subseg_self _, block_subseg hgr⟩⟩)
        · rcases List.mem_append.mp hg1' with hg1c | hg1r
          · rcases List.mem_cons.mp hg2 with rfl | hg2'
            · refine Or.inr (Or.inl ?_)
              rw [show (Node.mk i e nm cs).children = cs from rfl]
              exact block_subseg hg1c
            · rcases List.mem_append.mp hg2' with hg2c | hg2r
              · exact nod_lift_children (ih cs hszc g1 hg1c g2 hg2c hne)
              · refine Or.inr (Or.inr ⟨flattenNode (Node.mk i e nm cs), flatten_list rest,
                  flatten_list_cons _ _,
                  Or.inl ⟨subseg_into_flattenNode hg1c, block_subseg hg2r⟩⟩)
          · rcases List.mem_cons.mp hg2 with rfl | hg2'
            · refine Or.inr (Or.inr ⟨flattenNode (Node.mk i e nm cs), flatten_list rest,
                flatten_list_cons _ _, Or.inr ⟨subseg_self _, block_subseg hg1r⟩⟩)
            · rcases List.mem_append.mp hg2' with hg2c | hg2r
              · refine Or.inr (Or.inr ⟨flattenNode (Node.mk i e nm cs), flatten_list rest,
                  flatten_list_cons _ _,
                  Or.inr ⟨subseg_into_flattenNode hg2c, block_subseg hg1r⟩⟩)
              · exact nod_lift_rest (ih rest hszr g1 hg1r g2 hg2r hne)

/-- C7 counterexample: in the balanced input
`[GroupStart "B", GroupEnd, Item "a"]` the folder at position 0 (its
end marker at position 1) has an empty child list, so `_flatten_list`
never emits its end position: the output of the pipeline is `[0, 2]`
and position 1 appears nowhere — in particular not immediately after
the folder's subtree. -/
theorem c7_counterexample :
    buildForest [Entry.groupStart [66], Entry.groupEnd, Entry.item [97] true]
        = some ([Node.mk 0 1 [66] [], Node.mk 2 (-1) [97] []], 0)
      ∧ Node.mk 0 1 [66] [] ∈ allNodes [Node.mk 0 1 [66] [], Node.mk 2 (-1) [97] []]
      ∧ (Node.mk 0 1 [66] []).endIndex = 1
      ∧ flatten_list (sort_list [Node.mk 0 1 [66] [], Node.mk 2 (-1) [97] []]) = [0, 2]
      ∧ (1 : Int) ∉ flatten_list (sort_list [Node.mk 0 1 [66] [], Node.mk 2 (-1) [97] []]) := by
  have hfl : flatten_list (sort_list [Node.mk 0 1 [66] [], Node.mk 2 (-1) [97] []]) = [0, 2] := by
    simp [sort_list, sortEach, merge_sort, merge, strcmpLt, Node.name, flatten_list,
      merge_sort_nil]
  refine ⟨rfl, ?_, rfl, hfl, ?_⟩
  · rw [allNodes_cons]
    exact List.mem_cons_self _ _
  · rw [hfl]
    decide

/-- C7 amended: in the output of `flatten_list`, every folder node with
a nonempty child list contributes the contiguous block
`index :: (flattened subtree ++ [end_index])` — its end position
immediately follows the last position of its own subtree — and the
blocks of two distinct folder nodes never interleave: one lies inside
the other's subtree, or they occupy disjoint stretches of the output.
Folders with empty child lists must be excluded: their end position is
not emitted at all. -/
theorem c7_amended_bracket_preservation (F : List Node) :
    (∀ g ∈ allNodes F, g.endIndex ≠ -1 → g.children ≠ [] →
      SubSeg (((g.index : Nat) : Int) :: (flatten_list g.children ++ [g.endIndex]))
        (flatten_list F))
    ∧ (∀ g1 ∈ allNodes F, ∀ g2 ∈ allNodes F,
        g1.endIndex ≠ -1 → g1.children ≠ [] → g2.endIndex ≠ -1 → g2.children ≠ [] →
        g1 ≠ g2 → NestedOrDisjoint F g1 g2) := by
  constructor
  · intro g hg _ hch
    have hb : flattenNode g
        = ((g.index : Nat) : Int) :: (flatten_list g.children ++ [g.endIndex]) := by
      cases g with
      | mk i e nm cs =>
        have hch' : cs ≠ [] := hch
        have hcf : cs.isEmpty = false := List.isEmpty_eq_false.mpr hch'
        simp [flattenNode, hcf, Node.index, Node.children, Node.endIndex]
    rw [← hb]
    exact block_subseg hg
  · intro g1 hg1 g2 hg2 _ _ _ _ hne
    exact blocks_dichotomy_aux (sizeOf F) F le_rfl g1 hg1 g2 hg2 hne

/-- C7 witness: a nested concrete forest (folder A containing leaf a
and folder B containing leaf b); both block containment and the
dichotomy are instantiated. -/
theorem c7_witness :
    Node.mk 0 5 [65] [Node.mk 1 (-1) [97] [], Node.mk 2 4 [66] [Node.mk 3 (-1) [98] []]]
        ∈ allNodes [Node.mk 0 5 [65]
            [Node.mk 1 (-1) [97] [], Node.mk 2 4 [66] [Node.mk 3 (-1) [98] []]]]
      ∧ Node.mk 2 4 [66] [Node.mk 3 (-1) [98] []]
        ∈ allNodes [Node.mk 0 5 [65]
            [Node.mk 1 (-1) [97] [], Node.mk 2 4 [66] [Node.mk 3 (-1) [98] []]]]
      ∧ SubSeg
          (((2 : Nat) : Int) :: (flatten_list [Node.mk 3 (-1) [98] []] ++ [(4 : Int)]))
          (flatten_list [Node.mk 0 5 [65]
            [Node.mk 1 (-1) [97] [], Node.mk 2 4 [66] [Node.mk 3 (-1) [98] []]]])
      ∧ NestedOrDisjoint
          [Node.mk 0 5 [65] [Node.mk 1 (-1) [97] [], Node.mk 2 4 [66] [Node.mk 3 (-1) [98] []]]]
          (Node.mk 0 5 [65] [Node.mk 1 (-1) [97] [], Node.mk 2 4 [66] [Node.mk 3 (-1) [98] []]])
          (Node.mk 2 4 [66] [Node.mk 3 (-1) [98] []]) := by
  have hmemA : Node.mk 0 5 [65] [Node.mk 1 (-1) [97] [], Node.mk 2 4 [66] [Node.mk 3 (-1) [98] []]]
      ∈ allNodes [Node.mk 0 5 [65]
          [Node.mk 1 (-1) [97] [], Node.mk 2 4 [66] [Node.mk 3 (-1) [98] []]]] := by
    rw [allNodes_cons]
    exact List.mem_cons_self _ _
  have hmemB : Node.mk 2 4 [66] [Node.mk 3 (-1) [98] []]
      ∈ allNodes [Node.mk 0 5 [65]
          [Node.mk 1 (-1) [97] [], Node.mk 2 4 [66] [Node.mk 3 (-1) [98] []]]] := by
    rw [allNodes_cons]
    refine List.mem_cons_of_mem _ (List.mem_append_left _ ?_)
    rw [allNodes_cons]
    refine List.mem_cons_of_mem _ (List.mem_append_right _ ?_)
    rw [allNodes_cons]
    exact List.mem_cons_self _ _
  have hne : Node.mk 0 5 [65] [Node.mk 1 (-1) [97] [], Node.mk 2 4 [66] [Node.mk 3 (-1) [98] []]]
      ≠ Node.mk 2 4 [66] [Node.mk 3 (-1) [98] []] := by
    intro h
    have := congrArg Node.index h
    simp [Node.index] at this
  refine ⟨hmemA, hmemB, ?_, ?_⟩
  · have h1 := (c7_amended_bracket_preservation _).1 _ hmemB (by decide) (by simp [Node.children])
    simpa [Node.index, Node.children, Node.endIndex] using h1
  · exact (c7_amended_bracket_preservation _).2 _ hmemA _ hmemB
      (by decide) (by simp [Node.children]) (by decide) (by simp [Node.children]) hne

/- ===== Array-level lemmas about recalculate_indexes and reorderArray ===== -/

theorem bump_length (o : Int) : ∀ l : List Int, (bump o l).length = l.length := by
  intro l
  induction l with
  | nil => rfl
  | cons v vs ih => simp [bump, ih]

theorem bump_getD (o : Int) : ∀ (l : List Int) (j : Nat), j < l.length →
    (bump o l).getD j 0 = if l.getD j 0 < o then l.getD j 0 + 1 else l.getD j 0 := by
  intro l
  induction l with
  | nil => intro j hj; simp at hj
  | cons v vs ih =>
    intro j hj
    cases j with
    | zero => simp [bump]
    | succ j' =>
      simp only [bump, List.getD_cons_succ]
      exact ih j' (by simpa using hj)

theorem recalculate_length (r : List Int) (i : Nat) :
    (recalculate_indexes r i).length = r.length := by
  unfold recalculate_indexes
  rw [List.length_append, bump_length, List.length_take, List.length_drop]
  omega

theorem getD_take : ∀ (l : List Int) (i j : Nat), j < i → (l.take i).getD j 0 = l.getD j 0 := by
  intro l
  induction l with
  | nil => intro i j h; simp
  | cons v vs ih =>
    intro i j h
    cases i with
    | zero => omega
    | succ i' =>
      cases j with
      | zero => simp
      | succ j' =>
        simp only [List.take_succ_cons, List.getD_cons_succ]
        exact ih i' j' (by omega)

theorem getD_drop : ∀ (l : List Int) (i j : Nat), (l.drop i).getD j 0 = l.getD (i + j) 0 := by
  intro l
  induction l with
  | nil => intro i j; simp
  | cons v vs ih =>
    intro i j
    cases i with
    | zero => simp
    | succ i' =>
      simp only [List.drop_succ_cons]
      rw [ih i' j]
      have : i' + 1 + j = (i' + j) + 1 := by omega
      rw [this, List.getD_cons_succ]

theorem recalculate_getD (r : List Int) (i j : Nat) (hj : j < r.length) :
    (recalculate_indexes r i).getD j 0
      = if i ≤ j then (if r.getD j 0 < r.getD i 0 then r.getD j 0 + 1 else r.getD j 0)
        else r.getD j 0 := by
  unfold recalculate_indexes
  by_cases hij : i ≤ j
  · rw [if_pos hij]
    have htl : (r.take i).length = i := by
      rw [List.length_take]
      omega
    rw [List.getD_append_right _ _ _ _ (by omega)]
    rw [htl]
    have hdl : j - i < (r.drop i).length := by
      rw [List.length_drop]
      omega
    rw [bump_getD _ _ _ hdl, getD_drop]
    have harith : i + (j - i) = j := by omega
    rw [harith]
  · rw [if_neg hij]
    have hjt : j < (r.take i).length := by
      rw [List.length_take]
      omega
    rw [List.getD_append _ _ _ _ hjt, getD_take _ _ _ (by omega)]

theorem reorderArray_length (n : Nat) (flat : List Int) (junk : Nat → Int) :
    (reorderArray n flat junk).length = n := by
  unfold reorderArray
  rw [List.length_map, List.length_range]

theorem reorderArray_getD (n : Nat) (flat : List Int) (junk : Nat → Int) (j : Nat)
    (hj : j < n) :
    (reorderArray n flat junk).getD j 0
      = if j < flat.length then flat.getD j 0 else junk j := by
  unfold reorderArray
  have hlen : j < ((List.range n).map
      (fun i => if i < flat.length then flat.getD i 0 else junk i)).length := by
    rw [List.length_map, List.length_range]
    exact hj
  rw [List.getD_eq_getElem _ _ hlen, List.getElem_map, List.getElem_range]

/- ===== C10: placeholders under-fill the reorder array ===== -/

/-- Number of placeholder entries. -/
def numPh (E : List Entry) : Nat :=
  E.countP (fun e => match e with | .placeholder => true | _ => false)

theorem flattenNode_length_le (i : Nat) (e : Int) (nm : List Nat) (cs : List Node) :
    (flattenNode (Node.mk i e nm cs)).length ≤ 2 + (flatten_list cs).length := by
  cases cs with
  | nil => simp [flattenNode, flatten_list]
  | cons c cs' =>
    simp [flattenNode]
    omega

theorem numPh_append (X Y : List Entry) : numPh (X ++ Y) = numPh X + numPh Y := by
  unfold numPh
  rw [List.countP_append]

theorem denotes_flatten_le : ∀ {E : List Entry} {pos : Nat} {F : List Node} {k : Nat},
    Denotes E pos F k → (flatten_list F).length + numPh E + k ≤ E.length := by
  intro E pos F k hd
  induction hd with
  | nil pos => simp [flatten_list, numPh]
  | itemT nm es pos F k hdes ih =>
    rw [flatten_list_cons]
    simp only [List.length_append, List.length_cons, numPh, List.countP_cons] at ih ⊢
    simp only [flattenNode, List.isEmpty_nil]
    simp
    omega
  | itemF nm es pos F k hdes ih =>
    simp only [numPh, List.countP_cons, List.length_cons] at ih ⊢
    simp
    omega
  | ph es pos F k hdes ih =>
    simp only [numPh, List.countP_cons, List.length_cons] at ih ⊢
    simp
    omega
  | group nm inner es pos C F k1 k2 hdC hdF ihC ihF =>
    rw [flatten_list_cons]
    have hblock := flattenNode_length_le pos ((pos + 1 + inner.length : Nat) : Int) nm C
    have hph : numPh (Entry.groupStart nm :: (inner ++ Entry.groupEnd :: es))
        = numPh inner + numPh es := by
      simp [numPh, List.countP_cons, List.countP_append]
    rw [List.length_append, hph]
    simp only [List.length_cons, List.length_append]
    omega

theorem denotes_flatten_nonneg : ∀ {E : List Entry} {pos : Nat} {F : List Node} {k : Nat},
    Denotes E pos F k → ∀ v ∈ flatten_list F, 0 ≤ v := by
  intro E pos F k hd
  induction hd with
  | nil pos => intro v hv; simp [flatten_list] at hv
  | itemT nm es pos F k hdes ih =>
    intro v hv
    rw [flatten_list_cons] at hv
    simp only [flattenNode, List.isEmpty_nil] at hv
    simp at hv
    rcases hv with rfl | hv
    · positivity
    · exact ih v hv
  | itemF nm es pos F k hdes ih => exact ih
  | ph es pos F k hdes ih => exact ih
  | group nm inner es pos C F k1 k2 hdC hdF ihC ihF =>
    intro v hv
    rw [flatten_list_cons] at hv
    rcases List.mem_append.mp hv with hv1 | hv2
    · simp only [flattenNode] at hv1
      rcases List.mem_cons.mp hv1 with rfl | hv1'
      · positivity
      · by_cases hcs : C.isEmpty
        · rw [if_pos hcs] at hv1'
          simp at hv1'
        · rw [if_neg hcs] at hv1'
          rcases List.mem_append.mp hv1' with hv3 | hv4
          · exact ihC v hv3
          · simp at hv4
            subst hv4
            positivity
    · exact ihF v hv2

theorem bump_mem {o : Int} {w : Int} : ∀ {l : List Int}, w ∈ bump o l →
    ∃ v ∈ l, w = v + 1 ∨ w = v := by
  intro l
  induction l with
  | nil => intro h; simp [bump] at h
  | cons v vs ih =>
    intro h
    simp only [bump, List.mem_cons] at h
    rcases h with h1 | h2
    · by_cases hv : v < o
      · rw [if_pos hv] at h1
        exact ⟨v, List.mem_cons_self _ _, Or.inl h1⟩
      · rw [if_neg hv] at h1
        exact ⟨v, List.mem_cons_self _ _, Or.inr h1⟩
    · rcases ih h2 with ⟨v', hv', hw⟩
      exact ⟨v', List.mem_cons_of_mem _ hv', hw⟩

theorem recalculate_nonneg {r : List Int} (h : ∀ v ∈ r, 0 ≤ v) (i : Nat) :
    ∀ v ∈ recalculate_indexes r i, 0 ≤ v := by
  intro v hv
  unfold recalculate_indexes at hv
  rcases List.mem_append.mp hv with h1 | h2
  · exact h v (List.mem_of_mem_take h1)
  · rcases bump_mem h2 with ⟨w, hw, hcase⟩
    have hw' : 0 ≤ w := h w (List.mem_of_mem_drop hw)
    rcases hcase with rfl | rfl
    · omega
    · exact hw'

theorem getD_nonneg {r : List Int} (h : ∀ v ∈ r, 0 ≤ v) (i : Nat) : 0 ≤ r.getD i 0 := by
  by_cases hi : i < r.length
  · rw [List.getD_eq_getElem _ _ hi]
    exact h _ (List.getElem_mem hi)
  · rw [List.getD_eq_default _ _ (by omega)]

theorem moveLoopAux_nonneg : ∀ (fuel : Nat) (r : List Int) (i : Nat),
    (∀ v ∈ r, 0 ≤ v) → ∀ m ∈ moveLoopAux r i fuel, 0 ≤ m.1 := by
  intro fuel
  induction fuel with
  | zero => intro r i h m hm; simp [moveLoopAux] at hm
  | succ f ih =>
    intro r i h m hm
    rw [moveLoopAux] at hm
    by_cases hc : (i : Int) = r.getD i 0
    · rw [if_pos hc] at hm
      exact ih r (i + 1) h m hm
    · rw [if_neg hc] at hm
      rcases List.mem_cons.mp hm with rfl | hm'
      · exact getD_nonneg h i
      · exact ih _ (i + 1) (recalculate_nonneg h i) m hm'

theorem recalculate_getD_le (r : List Int) (i j : Nat) (hj : j < r.length) :
    (recalculate_indexes r i).getD j 0 ≤ r.getD j 0 + 1 := by
  rw [recalculate_getD r i j hj]
  by_cases h1 : i ≤ j
  · rw [if_pos h1]
    by_cases h2 : r.getD j 0 < r.getD i 0
    · rw [if_pos h2]
    · rw [if_neg h2]; omega
  · rw [if_neg h1]; omega

theorem moveLoopAux_neg_emits : ∀ (fuel : Nat) (r : List Int) (i j : Nat),
    r.length = i + fuel → i ≤ j → j < i + fuel →
    r.getD j 0 + ((j : Int) - (i : Int)) < 0 →
    ∃ m ∈ moveLoopAux r i fuel, m.1 < 0 := by
  intro fuel
  induction fuel with
  | zero => intro r i j hlen hij hj hneg; omega
  | succ f ih =>
    intro r i j hlen hij hj hneg
    rw [moveLoopAux]
    by_cases hji : j = i
    · subst hji
      have hvneg : r.getD j 0 < 0 := by omega
      have hc : ¬ ((j : Int) = r.getD j 0) := by
        intro hv
        omega
      rw [if_neg hc]
      exact ⟨(r.getD j 0, (j : Int)), List.mem_cons_self _ _, hvneg⟩
    · have hij' : i + 1 ≤ j := by omega
      have hcast : ((i + 1 : Nat) : Int) = (i : Int) + 1 := by push_cast; rfl
      by_cases hc : (i : Int) = r.getD i 0
      · rw [if_pos hc]
        refine ih r (i + 1) j (by omega) hij' (by omega) ?_
        rw [hcast]
        omega
      · rw [if_neg hc]
        have hjlen : j < r.length := by omega
        have hb := recalculate_getD_le r i j hjlen
        rcases ih (recalculate_indexes r i) (i + 1) j
            (by rw [recalculate_length]; omega) hij' (by omega)
            (by rw [hcast]; omega) with ⟨m, hm, hmneg⟩
        exact ⟨m, List.mem_cons_of_mem _ hm, hmneg⟩

/-- C10 counterexample: for the fully loaded input
`[GroupStart "F", Item "a", Placeholder]` (unclosed folder, one
placeholder) `flatten_list` writes index 0, index 1 and the folder's
never-set `end_index` (-1): three entries, exactly `num_playlists` —
not strictly fewer, refuting the claim as stated for arbitrary
fully-loaded inputs with a placeholder. -/
theorem c10_counterexample :
    fullyLoadedB [Entry.groupStart [70], Entry.item [97] true, Entry.placeholder] = true
      ∧ Entry.placeholder ∈ [Entry.groupStart [70], Entry.item [97] true, Entry.placeholder]
      ∧ buildForest [Entry.groupStart [70], Entry.item [97] true, Entry.placeholder]
          = some ([Node.mk 0 (-1) [70] [Node.mk 1 (-1) [97] []]], 0)
      ∧ (flatten_list (sort_list [Node.mk 0 (-1) [70] [Node.mk 1 (-1) [97] []]])).length
          = [Entry.groupStart [70], Entry.item [97] true, Entry.placeholder].length := by
  refine ⟨rfl, by decide, rfl, ?_⟩
  simp [sort_list, sortEach, merge_sort, merge, flatten_list, merge_sort_nil,
    merge_sort_singleton]

/-- C10 amended: for every balanced, fully loaded input containing at
least one placeholder and building a nonempty forest, `flatten_list`
writes strictly fewer than `num_playlists` entries of the `reorder`
array, and the move loop does read the unwritten slots: the observable
output of the pass depends on the uninitialised contents of the
`malloc`ed array (two different junk fills give different move
sequences). -/
theorem c10_amended_underfilled_reorder (E : List Entry) (F : List Node)
    (hb : balanced E = true) (hl : fullyLoadedB E = true)
    (h : buildForest E = some (F, 0)) (hph : Entry.placeholder ∈ E) (hne : F ≠ []) :
    (flatten_list (sort_list F)).length < E.length
    ∧ sort_playlists (fun _ => -((E.length : Int) + 1)) E
      ≠ sort_playlists (fun _ => 2 * (E.length : Int)) E := by
  have hd := balanced_build_denotes hb h
  have hle := denotes_flatten_le hd
  have hph1 : 0 < numPh E := by
    refine List.countP_pos_iff.mpr ⟨Entry.placeholder, hph, rfl⟩
  have hslen : (flatten_list (sort_list F)).length = (flatten_list F).length :=
    (flatten_sort_perm F).length_eq
  have hlt : (flatten_list (sort_list F)).length < E.length := by omega
  refine ⟨hlt, ?_⟩
  have hFe : F.isEmpty = false := List.isEmpty_eq_false.mpr hne
  have hout : ∀ junk : Nat → Int, sort_playlists junk E
      = some ((move_list (reorderArray E.length (flatten_list (sort_list F)) junk)).map
          (fun m => OutEvent.move m.1 m.2)) := by
    intro junk
    unfold sort_playlists
    rw [h]
    simp [hFe]
  intro heq
  rw [hout, hout] at heq
  have hmap := Option.some.inj heq
  have hmv : move_list (reorderArray E.length (flatten_list (sort_list F))
        (fun _ => -((E.length : Int) + 1)))
      = move_list (reorderArray E.length (flatten_list (sort_list F))
        (fun _ => 2 * (E.length : Int))) := by
    have hinj : Function.Injective (fun m : Int × Int => OutEvent.move m.1 m.2) := by
      intro a b hab
      simp only [OutEvent.move.injEq] at hab
      exact Prod.ext hab.1 hab.2
    exact List.map_injective_iff.mpr hinj hmap
  set flat := flatten_list (sort_list F) with hflat
  have hflatnn : ∀ v ∈ flat, 0 ≤ v := by
    intro v hv
    have : v ∈ flatten_list F := (flatten_sort_perm F).mem_iff.mp hv
    exact denotes_flatten_nonneg hd v this
  have hBnn : ∀ v ∈ reorderArray E.length flat (fun _ => 2 * (E.length : Int)), 0 ≤ v := by
    intro v hv
    unfold reorderArray at hv
    rcases List.mem_map.mp hv with ⟨j, hj, rfl⟩
    by_cases hjf : j < flat.length
    · rw [if_pos hjf]
      rw [List.getD_eq_getElem _ _ hjf]
      exact hflatnn _ (List.getElem_mem hjf)
    · rw [if_neg hjf]
      positivity
  have hBlen : (reorderArray E.length flat (fun _ => 2 * (E.length : Int))).length = E.length :=
    reorderArray_length _ _ _
  have hAlen : (reorderArray E.length flat (fun _ => -((E.length : Int) + 1))).length
      = E.length := reorderArray_length _ _ _
  have hnegA : ∃ m ∈ move_list (reorderArray E.length flat
      (fun _ => -((E.length : Int) + 1))), m.1 < 0 := by
    have hjlt : flat.length < E.length := hlt
    unfold move_list
    rw [hAlen]
    refine moveLoopAux_neg_emits E.length _ 0 flat.length ?_ (by omega) (by omega) ?_
    · rw [hAlen]
      omega
    · rw [reorderArray_getD _ _ _ _ hjlt, if_neg (by omega)]
      have : (flat.length : Int) < (E.length : Int) := by exact_mod_cast hjlt
      omega
  rcases hnegA with ⟨m, hm, hmneg⟩
  rw [show move_list (reorderArray E.length flat (fun _ => -((E.length : Int) + 1)))
        = moveLoopAux (reorderArray E.length flat (fun _ => -((E.length : Int) + 1))) 0
            (reorderArray E.length flat (fun _ => -((E.length : Int) + 1))).length
      from rfl] at hm
  rw [show moveLoopAux (reorderArray E.length flat (fun _ => -((E.length : Int) + 1))) 0
            (reorderArray E.length flat (fun _ => -((E.length : Int) + 1))).length
        = move_list (reorderArray E.length flat (fun _ => -((E.length : Int) + 1)))
      from rfl] at hm
  rw [hmv] at hm
  have := moveLoopAux_nonneg (reorderArray E.length flat
      (fun _ => 2 * (E.length : Int))).length _ 0 hBnn m hm
  omega

/-- C10 witness: one loaded item plus one placeholder; the reorder array
has two slots but only one is written, and the two junk fills produce
observably different passes. -/
theorem c10_witness :
    balanced [Entry.item [97] true, Entry.placeholder] = true
    ∧ fullyLoadedB [Entry.item [97] true, Entry.placeholder] = true
    ∧ buildForest [Entry.item [97] true, Entry.placeholder] = some ([Node.mk 0 (-1) [97] []], 0)
    ∧ Entry.placeholder ∈ [Entry.item [97] true, Entry.placeholder]
    ∧ ([Node.mk 0 (-1) [97] []] : List Node) ≠ []
    ∧ ((flatten_list (sort_list [Node.mk 0 (-1) [97] []])).length
        < [Entry.item [97] true, Entry.placeholder].length
      ∧ sort_playlists (fun _ => -(([Entry.item [97] true, Entry.placeholder].length : Int) + 1))
          [Entry.item [97] true, Entry.placeholder]
        ≠ sort_playlists (fun _ => 2 * ([Entry.item [97] true, Entry.placeholder].length : Int))
          [Entry.item [97] true, Entry.placeholder]) :=
  ⟨rfl, rfl, rfl, by decide, by simp,
    c10_amended_underfilled_reorder _ _ rfl rfl rfl (by decide) (by simp)⟩

/- ===== C1: the emitted moves realise the target permutation ===== -/

theorem move_playlist_length (S : List Int) (f i : Nat) (hf : f < S.length)
    (hi : i ≤ f) :
    (move_playlist S ((f : Nat) : Int) ((i : Nat) : Int)).length = S.length := by
  unfold move_playlist
  rw [if_pos (by simp [hf])]
  simp only [Int.toNat_ofNat]
  rw [List.length_insertIdx]
  · rw [List.length_eraseIdx, if_pos hf]
    omega
  · rw [List.length_eraseIdx, if_pos hf]
    omega

theorem move_playlist_getD (S : List Int) (f i : Nat) (hf : f < S.length) (hi : i ≤ f)
    (k : Nat) (hk : k < S.length) :
    (move_playlist S ((f : Nat) : Int) ((i : Nat) : Int)).getD k 0
      = if k < i then S.getD k 0
        else if k = i then S.getD f 0
        else if k ≤ f then S.getD (k - 1) 0
        else S.getD k 0 := by
  unfold move_playlist
  rw [if_pos (by simp [hf])]
  simp only [Int.toNat_ofNat]
  have hel : (S.eraseIdx f).length = S.length - 1 := by
    rw [List.length_eraseIdx, if_pos hf]
  have hil : i ≤ (S.eraseIdx f).length := by omega
  have hlen : ((S.eraseIdx f).insertIdx i (S.getD f 0)).length = S.length := by
    rw [List.length_insertIdx _ _ hil, hel]
    omega
  have hkl : k < ((S.eraseIdx f).insertIdx i (S.getD f 0)).length := by omega
  rw [List.getD_eq_getElem _ _ hkl]
  by_cases h1 : k < i
  · rw [if_pos h1, List.getD_eq_getElem _ _ hk]
    rw [List.getElem_insertIdx_of_lt _ _ _ _ h1 (by omega)]
    rw [List.getElem_eraseIdx]
    rw [dif_pos (by omega : k < f)]
  · rw [if_neg h1]
    by_cases h2 : k = i
    · subst h2
      rw [if_pos rfl]
      rw [List.getElem_insertIdx_self _ _ _ hil]
    · rw [if_neg h2]
      obtain ⟨m, rfl⟩ : ∃ m, k = i + m + 1 := ⟨k - i - 1, by omega⟩
      have hke : i + m < (S.eraseIdx f).length := by omega
      rw [List.getElem_insertIdx_add_succ _ _ _ _ hke]
      rw [List.getElem_eraseIdx]
      by_cases h3 : i + m + 1 ≤ f
      · rw [if_pos h3, dif_pos (by omega : i + m < f)]
        rw [show i + m + 1 - 1 = i + m from by omega]
        rw [List.getD_eq_getElem _ _ (by omega : i + m < S.length)]
      · rw [if_neg h3, dif_neg (by omega : ¬ i + m < f)]
        rw [List.getD_eq_getElem _ _ (by omega : i + m + 1 < S.length)]

theorem idInts_length (n : Nat) : (idInts n).length = n := by
  rw [idInts, List.length_map, List.length_range]

theorem idInts_getD {n j : Nat} (hj : j < n) : (idInts n).getD j 0 = (j : Int) := by
  unfold idInts
  have hl : j < ((List.range n).map Int.ofNat).length := by
    rw [List.length_map, List.length_range]
    exact hj
  rw [List.getD_eq_getElem _ _ hl, List.getElem_map, List.getElem_range]
  simp

theorem recalc_value (W : List Int) (i j p q : Nat) (hj : j < W.length)
    (hWi : W.getD i 0 = (p : Int)) (hWj : W.getD j 0 = (q : Int)) (hij : i ≤ j) :
    (recalculate_indexes W i).getD j 0 = if q < p then ((q : Int) + 1) else (q : Int) := by
  rw [recalculate_getD W i j hj, if_pos hij, hWi, hWj]
  by_cases h : q < p
  · rw [if_pos (by exact_mod_cast h), if_pos h]
  · rw [if_neg (by exact_mod_cast h), if_neg h]

theorem simLoop (T : List Int) (n : Nat) (hT : T.length = n) :
    ∀ (fuel i : Nat) (W S : List Int),
    i + fuel = n → W.length = n → S.length = n →
    (∀ j, j < i → S.getD j 0 = T.getD j 0) →
    (∀ j, i ≤ j → j < n → ∃ p : Nat, i ≤ p ∧ p < n ∧ W.getD j 0 = (p : Int)
        ∧ S.getD p 0 = T.getD j 0) →
    (∀ j k, i ≤ j → j < k → k < n → W.getD j 0 ≠ W.getD k 0) →
    simulate S (moveLoopAux W i fuel) = T := by
  intro fuel
  induction fuel with
  | zero =>
    intro i W S hin hW hS inv1 _ _
    rw [moveLoopAux]
    show S = T
    refine List.ext_getElem (by omega) ?_
    intro j h1 h2
    have hj := inv1 j (by omega)
    rw [List.getD_eq_getElem _ _ h1, List.getD_eq_getElem _ _ h2] at hj
    exact hj
  | succ f ih =>
    intro i W S hin hW hS inv1 inv2 inv3
    have hin' : i < n := by omega
    rcases inv2 i le_rfl hin' with ⟨p, hip, hpn, hWi, hSp⟩
    rw [moveLoopAux]
    by_cases hc : (i : Int) = W.getD i 0
    · rw [if_pos hc]
      have hpi : p = i := by
        rw [hWi] at hc
        omega
      refine ih (i + 1) W S (by omega) hW hS ?_ ?_ ?_
      · intro j hj
        rcases Nat.lt_succ_iff_lt_or_eq.mp hj with hj' | rfl
        · exact inv1 j hj'
        · rw [← hSp, hpi]
      · intro j hj1 hj2
        rcases inv2 j (by omega) hj2 with ⟨q, hiq, hqn, hWj, hSq⟩
        refine ⟨q, ?_, hqn, hWj, hSq⟩
        have hne := inv3 i j le_rfl (by omega) hj2
        rw [hWi, hpi, hWj] at hne
        have : q ≠ i := by
          intro hv
          rw [hv] at hne
          exact hne rfl
        omega
      · intro j k hj hjk hkn
        exact inv3 j k (by omega) hjk hkn
    · rw [if_neg hc]
      have hpi : i < p := by
        rw [hWi] at hc
        rcases Nat.lt_or_ge i p with h | h
        · exact h
        · exfalso
          rcases Nat.lt_or_ge p i with h2 | h2
          · omega
          · have : p = i := by omega
            rw [this] at hc
            exact hc rfl
      rw [show simulate S ((W.getD i 0, (i : Int))
            :: moveLoopAux (recalculate_indexes W i) (i + 1) f)
          = simulate (move_playlist S (W.getD i 0) ((i : Int)))
              (moveLoopAux (recalculate_indexes W i) (i + 1) f) from rfl]
      rw [hWi]
      have hplen : p < S.length := by omega
      have hile : i ≤ p := by omega
      have hS2len : (move_playlist S ((p : Nat) : Int) ((i : Nat) : Int)).length = n := by
        rw [move_playlist_length S p i hplen hile, hS]
      have hS2 : ∀ k2, k2 < n →
          (move_playlist S ((p : Nat) : Int) ((i : Nat) : Int)).getD k2 0
            = if k2 < i then S.getD k2 0
              else if k2 = i then S.getD p 0
              else if k2 ≤ p then S.getD (k2 - 1) 0
              else S.getD k2 0 := by
        intro k2 hk2
        exact move_playlist_getD S p i hplen hile k2 (by omega)
      refine ih (i + 1) (recalculate_indexes W i) _ (by omega)
        (by rw [recalculate_length, hW]) hS2len ?_ ?_ ?_
      · intro j hj
        rcases Nat.lt_succ_iff_lt_or_eq.mp hj with hj' | rfl
        · rw [hS2 j (by omega), if_pos hj']
          exact inv1 j hj'
        · rw [hS2 j (by omega), if_neg (by omega), if_pos rfl]
          exact hSp
      · intro j hj1 hj2
        rcases inv2 j (by omega) hj2 with ⟨q, hiq, hqn, hWj, hSq⟩
        have hqp : q ≠ p := by
          have hne := inv3 i j le_rfl (by omega) hj2
          rw [hWi, hWj] at hne
          intro hv
          rw [hv] at hne
          exact hne rfl
        have hrv := recalc_value W i j p q (by omega) hWi hWj (by omega)
        by_cases hqlt : q < p
        · rw [if_pos hqlt] at hrv
          refine ⟨q + 1, by omega, by omega, ?_, ?_⟩
          · rw [hrv]
            push_cast
            ring
          · rw [hS2 (q + 1) (by omega), if_neg (by omega), if_neg (by omega),
              if_pos (by omega)]
            simpa using hSq
        · rw [if_neg hqlt] at hrv
          have hqgt : p < q := by omega
          refine ⟨q, by omega, by omega, hrv, ?_⟩
          rw [hS2 q (by omega), if_neg (by omega), if_neg (by omega), if_neg (by omega)]
          exact hSq
      · intro j k hj hjk hkn
        rcases inv2 j (by omega) (by omega) with ⟨qj, hiqj, hqjn, hWj, hSqj⟩
        rcases inv2 k (by omega) hkn with ⟨qk, hiqk, hqkn, hWk, hSqk⟩
        have hqjk : qj ≠ qk := by
          have hne := inv3 j k (by omega) hjk hkn
          rw [hWj, hWk] at hne
          intro hv
          rw [hv] at hne
          exact hne rfl
        have hqjp : qj ≠ p := by
          have hne := inv3 i j le_rfl (by omega) (by omega)
          rw [hWi, hWj] at hne
          intro hv
          rw [hv] at hne
          exact hne rfl
        have hqkp : qk ≠ p := by
          have hne := inv3 i k le_rfl (by omega) hkn
          rw [hWi, hWk] at hne
          intro hv
          rw [hv] at hne
          exact hne rfl
        rw [recalc_value W i j p qj (by omega) hWi hWj (by omega)]
        rw [recalc_value W i k p qk (by omega) hWi hWk (by omega)]
        by_cases h1 : qj < p
        · by_cases h2 : qk < p
          · rw [if_pos h1, if_pos h2]
            intro hv
            have : qj = qk := by omega
            exact hqjk this
          · rw [if_pos h1, if_neg h2]
            intro hv
            have : qj + 1 = qk := by omega
            omega
        · by_cases h2 : qk < p
          · rw [if_neg h1, if_pos h2]
            intro hv
            omega
          · rw [if_neg h1, if_neg h2]
            intro hv
            have : qj = qk := by omega
            exact hqjk this

theorem sim_main (T : List Int) (hbd : ∀ v ∈ T, 0 ≤ v ∧ v < (T.length : Int))
    (hnd : T.Nodup) : simulate (idInts T.length) (move_list T) = T := by
  refine simLoop T T.length rfl T.length 0 T (idInts T.length) (by omega) rfl
    (idInts_length T.length) ?_ ?_ ?_
  · intro j hj
    omega
  · intro j hj0 hjn
    have hmem : T.getD j 0 ∈ T := by
      rw [List.getD_eq_getElem _ _ hjn]
      exact List.getElem_mem hjn
    rcases hbd _ hmem with ⟨hv0, hvn⟩
    refine ⟨(T.getD j 0).toNat, by omega, by omega, ?_, ?_⟩
    · rw [Int.toNat_of_nonneg hv0]
    · rw [idInts_getD (by omega : (T.getD j 0).toNat < T.length)]
      rw [Int.toNat_of_nonneg hv0]
  · intro j k hj0 hjk hkn
    rw [List.getD_eq_getElem _ _ (by omega : j < T.length),
      List.getD_eq_getElem _ _ hkn]
    intro hv
    have := hnd.getElem_inj_iff.mp hv
    omega

theorem nonPhPos_ph_free : ∀ (E : List Entry) (pos : Nat), placeholderFreeB E = true →
    nonPhPos E pos = (List.range' pos E.length).map Int.ofNat := by
  intro E
  induction E with
  | nil => intro pos _; simp [nonPhPos]
  | cons e es ih =>
    intro pos hpf
    have hpf' : placeholderFreeB es = true := by
      unfold placeholderFreeB at hpf ⊢
      rw [List.all_cons, Bool.and_eq_true] at hpf
      exact hpf.2
    cases e with
    | item nm loaded =>
      simp only [nonPhPos, List.length_cons]
      rw [List.range'_succ, List.map_cons, ih (pos + 1) hpf']
      simp [Int.ofNat_eq_natCast]
    | groupStart nm =>
      simp only [nonPhPos, List.length_cons]
      rw [List.range'_succ, List.map_cons, ih (pos + 1) hpf']
      simp [Int.ofNat_eq_natCast]
    | groupEnd =>
      simp only [nonPhPos, List.length_cons]
      rw [List.range'_succ, List.map_cons, ih (pos + 1) hpf']
      simp [Int.ofNat_eq_natCast]
    | placeholder =>
      exfalso
      unfold placeholderFreeB at hpf
      rw [List.all_cons] at hpf
      simp at hpf

theorem reorderArray_full (n : Nat) (flat : List Int) (junk : Nat → Int)
    (h : flat.length = n) : reorderArray n flat junk = flat := by
  refine List.ext_getElem (by rw [reorderArray_length, h]) ?_
  intro j h1 h2
  have hj : j < n := by rw [reorderArray_length] at h1; exact h1
  have hx := reorderArray_getD n flat junk j hj
  rw [if_pos (by omega)] at hx
  have hxa : (reorderArray n flat junk).getD j 0 = (reorderArray n flat junk)[j] :=
    List.getD_eq_getElem _ _ h1
  have hxb : flat.getD j 0 = flat[j] := List.getD_eq_getElem _ _ h2
  rw [← hxa, ← hxb, hx]

/-- C1 counterexample: the balanced, fully loaded, placeholder-free
input `[GroupStart "A", GroupEnd]` builds an empty folder, so
`flatten_list` writes only one of the two `reorder` slots; the move
loop reads the second, uninitialised slot (here junk 0) and emits the
bogus move `(0, 1)` — applying the emitted moves to the original order
gives `[1, 0]`, not the flattener's target `[0]`. -/
theorem c1_counterexample :
    balanced [Entry.groupStart [65], Entry.groupEnd] = true
    ∧ fullyLoadedB [Entry.groupStart [65], Entry.groupEnd] = true
    ∧ placeholderFreeB [Entry.groupStart [65], Entry.groupEnd] = true
    ∧ buildForest [Entry.groupStart [65], Entry.groupEnd] = some ([Node.mk 0 1 [65] []], 0)
    ∧ flatten_list (sort_list [Node.mk 0 1 [65] []]) = [0]
    ∧ ¬ simulate (idInts [Entry.groupStart [65], Entry.groupEnd].length)
        (move_list (reorderArray [Entry.groupStart [65], Entry.groupEnd].length
          (flatten_list (sort_list [Node.mk 0 1 [65] []])) (fun _ => 0)))
        = flatten_list (sort_list [Node.mk 0 1 [65] []]) := by
  have hfl : flatten_list (sort_list [Node.mk 0 1 [65] []]) = [0] := by
    rw [sort_list]
    simp [sortEach, merge_sort_nil, merge_sort_singleton, flatten_list]
  refine ⟨rfl, rfl, rfl, rfl, hfl, ?_⟩
  rw [hfl]
  decide

/-- C1 amended: for every balanced, fully loaded, placeholder-free
input whose built forest has no folder with an empty child list, the
`reorder` array is completely written, and applying the moves emitted
by the move loop, in order, with remove-then-reinsert semantics to the
original order yields exactly the target permutation produced by the
flattener — whatever junk the unwritten-array model carries. -/
theorem c1_amended_moves_realise_target (E : List Entry) (F : List Node) (junk : Nat → Int)
    (hb : balanced E = true) (hl : fullyLoadedB E = true)
    (hpf : placeholderFreeB E = true)
    (h : buildForest E = some (F, 0)) (hg : noEmptyGroups F = true) :
    simulate (idInts E.length)
      (move_list (reorderArray E.length (flatten_list (sort_list F)) junk))
      = flatten_list (sort_list F) := by
  have hd := balanced_build_denotes hb h
  have hperm : List.Perm (flatten_list (sort_list F)) (nonPhPos E 0) :=
    (flatten_sort_perm F).trans (denotes_flatten_perm hd rfl hg)
  rw [nonPhPos_ph_free E 0 hpf] at hperm
  have hlen : (flatten_list (sort_list F)).length = E.length := by
    rw [hperm.length_eq, List.length_map, List.length_range']
  have hbd : ∀ v ∈ flatten_list (sort_list F),
      0 ≤ v ∧ v < ((flatten_list (sort_list F)).length : Int) := by
    intro v hv
    have hv2 := hperm.mem_iff.mp hv
    rcases List.mem_map.mp hv2 with ⟨k, hk, rfl⟩
    rw [List.mem_range'_1] at hk
    refine ⟨Int.ofNat_nonneg k, ?_⟩
    rw [hlen]
    have : k < E.length := by omega
    rw [Int.ofNat_eq_natCast]
    exact_mod_cast this
  have hnd : (flatten_list (sort_list F)).Nodup := by
    refine hperm.nodup_iff.mpr ?_
    refine List.Nodup.map (fun a b hab => Int.ofNat.inj hab) (List.nodup_range' _ _)
  rw [reorderArray_full E.length (flatten_list (sort_list F)) junk hlen]
  have hmain := sim_main (flatten_list (sort_list F)) hbd hnd
  rw [hlen] at hmain
  exact hmain

/-- C1 witness: two items in reverse order plus a folder; the emitted
moves reorder the simulated container into the flattened target. -/
theorem c1_witness :
    balanced [Entry.item [98] true, Entry.item [97] true] = true
    ∧ fullyLoadedB [Entry.item [98] true, Entry.item [97] true] = true
    ∧ placeholderFreeB [Entry.item [98] true, Entry.item [97] true] = true
    ∧ buildForest [Entry.item [98] true, Entry.item [97] true]
        = some ([Node.mk 0 (-1) [98] [], Node.mk 1 (-1) [97] []], 0)
    ∧ noEmptyGroups [Node.mk 0 (-1) [98] [], Node.mk 1 (-1) [97] []] = true
    ∧ simulate (idInts [Entry.item [98] true, Entry.item [97] true].length)
        (move_list (reorderArray [Entry.item [98] true, Entry.item [97] true].length
          (flatten_list (sort_list [Node.mk 0 (-1) [98] [], Node.mk 1 (-1) [97] []]))
          (fun _ => 7)))
        = flatten_list (sort_list [Node.mk 0 (-1) [98] [], Node.mk 1 (-1) [97] []]) :=
  ⟨rfl, rfl, rfl, rfl, by simp [noEmptyGroups],
    c1_amended_moves_realise_target _ _ _ rfl rfl rfl rfl (by simp [noEmptyGroups])⟩

/- ===== C3: idempotence machinery ===== -/

theorem denotes_good : ∀ {seg : List Entry} {pos : Nat} {F : List Node} {k : Nat},
    Denotes seg pos F k → k = 0 → noEmptyGroups F = true →
    ∀ (E : List Entry), (∀ j, j < seg.length → E[pos + j]? = seg[j]?) →
    ∀ n ∈ F, GoodT E n := by
  intro seg pos F k hd
  induction hd with
  | nil pos => intro _ _ E _ n hn; simp at hn
  | itemT nm es pos F k hdes ih =>
    intro hk hg E hseg n hn
    simp only [noEmptyGroups, Bool.and_eq_true] at hg
    rcases List.mem_cons.mp hn with rfl | hn'
    · refine GoodT.leaf pos nm ?_
      have := hseg 0 (by simp)
      simpa using this
    · refine ih hk hg.2 E ?_ n hn'
      intro j hj
      have := hseg (j + 1) (by simp; omega)
      rw [show pos + (j + 1) = pos + 1 + j from by omega] at this
      simpa using this
  | itemF nm es pos F k hdes ih =>
    intro hk
    exact absurd hk (by omega)
  | ph es pos F k hdes ih =>
    intro hk hg E hseg n hn
    refine ih hk hg E ?_ n hn
    intro j hj
    have := hseg (j + 1) (by simp; omega)
    rw [show pos + (j + 1) = pos + 1 + j from by omega] at this
    simpa using this
  | group nm inner es pos C F k1 k2 hdC hdF ihC ihF =>
    intro hk hg E hseg n hn
    simp only [noEmptyGroups, Bool.and_eq_true, Bool.or_eq_true] at hg
    rcases hg with ⟨⟨hhead, hgC⟩, hgF⟩
    have hCne : C ≠ [] := by
      rcases hhead with h1 | h2
      · exfalso
        have := intOfNat_ne_negOne (pos + 1 + inner.length)
        exact this (by exact_mod_cast beq_iff_eq.mp h1)
      · intro hv
        rw [hv] at h2
        simp at h2
    have hlen : (Entry.groupStart nm :: (inner ++ Entry.groupEnd :: es)).length
        = 1 + inner.length + 1 + es.length := by
      simp
      omega
    rcases List.mem_cons.mp hn with rfl | hn'
    · refine GoodT.group pos (pos + 1 + inner.length) nm C ?_ ?_ hCne ?_
      · have := hseg 0 (by simp)
        simpa using this
      · have := hseg (inner.length + 1)
          (by simp only [List.length_cons, List.length_append]; omega)
        rw [show pos + (inner.length + 1) = pos + 1 + inner.length from by omega] at this
        rw [this]
        rw [List.getElem?_cons_succ]
        rw [List.getElem?_append_right (by omega)]
        simp
      · refine ihC (by omega) hgC E ?_
        intro j hj
        have := hseg (j + 1)
          (by simp only [List.length_cons, List.length_append]; omega)
        rw [show pos + (j + 1) = pos + 1 + j from by omega] at this
        rw [this, List.getElem?_cons_succ, List.getElem?_append_left hj]
    · refine ihF (by omega) hgF E ?_ n hn'
      intro j hj
      have := hseg ((inner.length + 1 + j) + 1)
        (by simp only [List.length_cons, List.length_append]; omega)
      rw [show pos + ((inner.length + 1 + j) + 1) = pos + 1 + inner.length + 1 + j
        from by omega] at this
      rw [this, List.getElem?_cons_succ, List.getElem?_append_right (by omega)]
      rw [show inner.length + 1 + j - inner.length = j + 1 from by omega]
      rw [List.getElem?_cons_succ]

theorem good_sort_aux : ∀ (N : Nat) (E : List Entry) (n : Node), sizeOf n ≤ N →
    GoodT E n → GoodT E (sortChildren n) := by
  intro N
  induction N with
  | zero =>
    intro E n h
    exfalso
    cases n with
    | mk i e nm cs => simp at h
  | succ N ih =>
    intro E n hsz hg
    cases hg with
    | leaf i nm hget =>
      show GoodT E (Node.mk i (-1) nm (sort_list []))
      rw [sort_list_nil]
      exact GoodT.leaf i nm hget
    | group i e nm cs hget1 hget2 hne hcs =>
      show GoodT E (Node.mk i ((e : Nat) : Int) nm (sort_list cs))
      have hlne : sort_list cs ≠ [] := by
        intro hv
        have := sort_list_length cs
        rw [hv] at this
        cases cs with
        | nil => exact hne rfl
        | cons c cs' => simp at this
      refine GoodT.group i e nm (sort_list cs) hget1 hget2 hlne ?_
      intro c hc
      have hc2 : c ∈ (sort_list cs) := hc
      have hc3 : c ∈ cs.map sortChildren := (sort_list_perm cs).mem_iff.mp hc2
      rcases List.mem_map.mp hc3 with ⟨m, hm, rfl⟩
      refine ih E m ?_ (hcs m hm)
      have h1 : sizeOf m < sizeOf cs := List.sizeOf_lt_of_mem hm
      have h2 : sizeOf cs < sizeOf (Node.mk i ((e : Nat) : Int) nm cs) := by
        simp [Node.mk.sizeOf_spec]
      omega

theorem good_sort_list {E : List Entry} {F : List Node}
    (h : ∀ n ∈ F, GoodT E n) : ∀ n ∈ sort_list F, GoodT E n := by
  intro n hn
  have hn2 : n ∈ F.map sortChildren := (sort_list_perm F).mem_iff.mp hn
  rcases List.mem_map.mp hn2 with ⟨m, hm, rfl⟩
  exact good_sort_aux (sizeOf m) E m le_rfl (h m hm)

theorem getD_of_getElem_eq {E : List Entry} {i : Nat} {x : Entry}
    (h : E[i]? = some x) : E.getD i Entry.placeholder = x := by
  rw [List.getD_eq_getElem?_getD, h]
  rfl

theorem encode_eq_aux : ∀ (N : Nat) (E : List Entry) (G : List Node), sizeOf G ≤ N →
    (∀ n ∈ G, GoodT E n) →
    (flatten_list G).map (fun p => E.getD p.toNat Entry.placeholder) = encode G := by
  intro N
  induction N with
  | zero =>
    intro E G h
    exfalso
    cases G with
    | nil => simp at h
    | cons a l => simp at h
  | succ N ih =>
    intro E G hsz hgood
    cases G with
    | nil => simp [flatten_list, encode]
    | cons n rest =>
      have hgn := hgood n (List.mem_cons_self _ _)
      have hgrest : ∀ m ∈ rest, GoodT E m := fun m hm =>
        hgood m (List.mem_cons_of_mem _ hm)
      have hszrest : sizeOf rest ≤ N := by
        have : sizeOf rest < sizeOf (n :: rest) := by simp
        omega
      cases hgn with
      | leaf i nm hget =>
        show (flatten_list (Node.mk i (-1) nm [] :: rest)).map _ = _
        rw [show flatten_list (Node.mk i (-1) nm [] :: rest)
              = ((i : Nat) : Int) :: flatten_list rest from by rw [flatten_list]]
        rw [List.map_cons, ih E rest hszrest hgrest]
        rw [show encode (Node.mk i (-1) nm [] :: rest)
              = Entry.item nm true :: encode rest from by rw [encode]]
        simp only [Int.toNat_ofNat]
        rw [getD_of_getElem_eq hget]
      | group i e nm cs hget1 hget2 hne hcs =>
        cases cs with
        | nil => exact absurd rfl hne
        | cons c cs' =>
          have hszcs : sizeOf (c :: cs') ≤ N := by
            have h2 : sizeOf (c :: cs')
                < sizeOf (Node.mk i ((e : Nat) : Int) nm (c :: cs')) := by
              simp [Node.mk.sizeOf_spec]
            have h3 : sizeOf (Node.mk i ((e : Nat) : Int) nm (c :: cs'))
                < sizeOf (Node.mk i ((e : Nat) : Int) nm (c :: cs') :: rest) := by
              simp
              omega
            omega
          rw [show flatten_list (Node.mk i ((e : Nat) : Int) nm (c :: cs') :: rest)
                = ((i : Nat) : Int) :: (flatten_list (c :: cs')
                    ++ ((e : Nat) : Int) :: flatten_list rest) from by rw [flatten_list]]
          rw [show encode (Node.mk i ((e : Nat) : Int) nm (c :: cs') :: rest)
                = Entry.groupStart nm :: (encode (c :: cs')
                    ++ Entry.groupEnd :: encode rest) from by rw [encode]]
          rw [List.map_cons, List.map_append, List.map_cons]
          rw [ih E (c :: cs') hszcs (fun m hm => hcs m hm), ih E rest hszrest hgrest]
          simp only [Int.toNat_ofNat]
          rw [getD_of_getElem_eq hget1, getD_of_getElem_eq hget2]

theorem encode_denotes_aux : ∀ (N : Nat) (G : List Node), sizeOf G ≤ N →
    ∀ pos : Nat, Denotes (encode G) pos (relabel G pos) 0 := by
  intro N
  induction N with
  | zero =>
    intro G h
    exfalso
    cases G with
    | nil => simp at h
    | cons a l => simp at h
  | succ N ih =>
    intro G hsz pos
    cases G with
    | nil =>
      rw [show encode ([] : List Node) = [] from by rw [encode],
        show relabel ([] : List Node) pos = [] from by rw [relabel]]
      exact Denotes.nil pos
    | cons n rest =>
      have hszrest : sizeOf rest ≤ N := by
        have : sizeOf rest < sizeOf (n :: rest) := by simp
        omega
      cases n with
      | mk i e nm cs =>
        cases cs with
        | nil =>
          rw [show encode (Node.mk i e nm [] :: rest)
                = Entry.item nm true :: encode rest from by rw [encode]]
          rw [show relabel (Node.mk i e nm [] :: rest) pos
                = Node.mk pos (-1) nm [] :: relabel rest (pos + 1) from by rw [relabel]]
          exact Denotes.itemT nm (encode rest) pos (relabel rest (pos + 1)) 0
            (ih rest hszrest (pos + 1))
        | cons c cs' =>
          have hszcs : sizeOf (c :: cs') ≤ N := by
            have h2 : sizeOf (c :: cs') < sizeOf (Node.mk i e nm (c :: cs')) := by
              simp [Node.mk.sizeOf_spec]
            have h3 : sizeOf (Node.mk i e nm (c :: cs'))
                ≤ sizeOf (Node.mk i e nm (c :: cs') :: rest) := by
              simp
              omega
            omega
          rw [show encode (Node.mk i e nm (c :: cs') :: rest)
                = Entry.groupStart nm :: (encode (c :: cs')
                    ++ Entry.groupEnd :: encode rest) from by rw [encode]]
          rw [show relabel (Node.mk i e nm (c :: cs') :: rest) pos
                = Node.mk pos ((pos + 1 + (encode (c :: cs')).length : Nat) : Int)
                    nm (relabel (c :: cs') (pos + 1))
                  :: relabel rest (pos + 1 + (encode (c :: cs')).length + 1)
              from by rw [relabel]]
          have h0 : (0 : Nat) = 0 + 0 := rfl
          rw [h0]
          exact Denotes.group nm (encode (c :: cs')) (encode rest) pos
            (relabel (c :: cs') (pos + 1))
            (relabel rest (pos + 1 + (encode (c :: cs')).length + 1)) 0 0
            (ih (c :: cs') hszcs (pos + 1))
            (ih rest hszrest (pos + 1 + (encode (c :: cs')).length + 1))

theorem namesNodup_iff : ∀ L : List (List Nat), namesNodup L = true ↔ L.Nodup := by
  intro L
  induction L with
  | nil => simp [namesNodup]
  | cons x xs ih =>
    simp only [namesNodup, Bool.and_eq_true, Bool.not_eq_true']
    rw [List.nodup_cons, ← ih]
    constructor
    · rintro ⟨h1, h2⟩
      refine ⟨?_, h2⟩
      intro hmem
      rw [← List.elem_iff] at hmem
      rw [show xs.contains x = xs.elem x from rfl] at h1
      rw [hmem] at h1
      exact Bool.noConfusion h1
    · rintro ⟨h1, h2⟩
      refine ⟨?_, h2⟩
      rw [show xs.contains x = xs.elem x from rfl]
      cases hv : xs.elem x with
      | false => rfl
      | true =>
        exfalso
        exact h1 (List.elem_iff.mp hv)

theorem chain_le_strict : ∀ l : List Node,
    List.Chain' (fun a b => nameLe a.name b.name) l →
    List.Pairwise (fun a b => a.name ≠ b.name) l →
    List.Chain' (fun a b => strcmpLt a.name b.name = true) l := by
  intro l
  induction l with
  | nil => intro _ _; exact List.chain'_nil
  | cons a l ih =>
    intro hc hp
    cases l with
    | nil => simp
    | cons b l' =>
      rw [List.chain'_cons] at hc ⊢
      rcases hc with ⟨hab, hc'⟩
      rcases List.pairwise_cons.mp hp with ⟨hane, hp'⟩
      refine ⟨?_, ih hc' hp'⟩
      have hne : a.name ≠ b.name := hane b (List.mem_cons_self _ _)
      unfold nameLe at hab
      cases hv : strcmpLt a.name b.name with
      | true => rfl
      | false => exact absurd (strcmpLt_total hv hab) hne

theorem distinctSibAux_mem : ∀ (l : List Node) (n : Node), distinctSibAux l = true →
    n ∈ l → distinctSibNames n.children = true := by
  intro l
  induction l with
  | nil => intro n _ hn; simp at hn
  | cons m rest ih =>
    intro n hd hn
    cases m with
    | mk i e nm cs =>
      simp only [distinctSibAux, Bool.and_eq_true] at hd
      rcases hd with ⟨⟨h1, h2⟩, h3⟩
      rcases List.mem_cons.mp hn with rfl | hn'
      · show distinctSibNames cs = true
        unfold distinctSibNames
        rw [h1, h2]
        rfl
      · exact ih n h3 hn'

theorem strict_of_sorted_distinct : ∀ (N : Nat) (G : List Node), sizeOf G ≤ N →
    AllSortedF G → distinctSibNames G = true → StrictSortedF G := by
  intro N
  induction N with
  | zero =>
    intro G h
    exfalso
    cases G with
    | nil => simp at h
    | cons a l => simp at h
  | succ N ih =>
    intro G hsz hs hd
    unfold distinctSibNames at hd
    rw [Bool.and_eq_true] at hd
    rcases hd with ⟨hnn, haux⟩
    cases hs with
    | mk _ hchain hchildren =>
      refine StrictSortedF.mk G ?_ ?_
      · refine chain_le_strict G hchain ?_
        exact List.pairwise_map.mp ((namesNodup_iff _).mp hnn)
      · intro n hn
        have hsz2 : sizeOf n.children ≤ N := by
          cases n with
          | mk i e nm cs =>
            have := @sizeOf_children_lt i e nm cs G hn
            simp only [Node.children]
            omega
        exact ih n.children hsz2 (hchildren n hn) (distinctSibAux_mem G n haux hn)

theorem strict_nil : StrictSortedF [] :=
  StrictSortedF.mk [] List.chain'_nil (by intro n hn; simp at hn)

theorem chain_head_lt : ∀ (A : List Node) (a b : Node) (B : List Node),
    List.Chain' (fun x y => strcmpLt x.name y.name = true) (a :: (A ++ b :: B)) →
    strcmpLt a.name b.name = true := by
  intro A
  induction A with
  | nil =>
    intro a b B h
    rw [List.nil_append, List.chain'_cons] at h
    exact h.1
  | cons c A' ih =>
    intro a b B h
    rw [List.cons_append, List.chain'_cons] at h
    exact strcmpLt_trans h.1 (ih c b B h.2)

theorem merge_chain_append : ∀ (A B : List Node),
    List.Chain' (fun x y => strcmpLt x.name y.name = true) (A ++ B) →
    merge A B = A ++ B := by
  intro A
  induction A with
  | nil => intro B _; rw [merge_nil_left, List.nil_append]
  | cons a A' ih =>
    intro B h
    cases B with
    | nil => rw [merge_nil_right, List.append_nil]
    | cons b B' =>
      rw [merge_cons_cons]
      rw [List.cons_append] at h
      have hlt : strcmpLt a.name b.name = true := chain_head_lt A' a b B' h
      rw [if_pos hlt]
      rw [List.cons_append, ih (b :: B') (List.Chain'.tail h)]

theorem merge_sort_chain_id : ∀ l : List Node,
    List.Chain' (fun x y => strcmpLt x.name y.name = true) l → merge_sort l = l := by
  intro l
  induction l using merge_sort.induct with
  | case1 l h1 =>
    intro _
    rw [merge_sort, if_pos h1]
  | case2 l h1 ih1 ih2 =>
    intro h
    rw [merge_sort, if_neg h1]
    have hsplit : List.Chain' (fun x y => strcmpLt x.name y.name = true)
        (l.take ((l.length + 1) / 2) ++ l.drop ((l.length + 1) / 2)) := by
      rw [List.take_append_drop]
      exact h
    rcases List.chain'_append.mp hsplit with ⟨hA, hB, -⟩
    rw [ih1 hA, ih2 hB, merge_chain_append _ _ hsplit, List.take_append_drop]

theorem sortChildren_name (n : Node) : (sortChildren n).name = n.name := by
  cases n with
  | mk i e nm cs => rfl

theorem sort_strict_id_aux : ∀ (N : Nat) (G : List Node), sizeOf G ≤ N →
    StrictSortedF G → sort_list G = G := by
  intro N
  induction N with
  | zero =>
    intro G h
    exfalso
    cases G with
    | nil => simp at h
    | cons a l => simp at h
  | succ N ih =>
    intro G hsz hs
    cases hs with
    | mk _ hchain hchildren =>
      have hmap : G.map sortChildren = G := by
        have h1 : ∀ n ∈ G, sortChildren n = id n := by
          intro n hn
          cases n with
          | mk i e nm cs =>
            show Node.mk i e nm (sort_list cs) = Node.mk i e nm cs
            have hscs : sizeOf cs ≤ N := by
              have := @sizeOf_children_lt i e nm cs G hn
              omega
            have := hchildren _ hn
            simp only [Node.children] at this
            rw [ih cs hscs this]
        rw [List.map_congr_left h1, List.map_id]
      rw [sort_list, sortEach_eq_map, hmap]
      exact merge_sort_chain_id G hchain

theorem distinctSibAux_of_members : ∀ l : List Node,
    (∀ n ∈ l, distinctSibNames n.children = true) → distinctSibAux l = true := by
  intro l
  induction l with
  | nil => intro _; simp [distinctSibAux]
  | cons n rest ih =>
    intro h
    cases n with
    | mk i e nm cs =>
      have hhead := h _ (List.mem_cons_self _ _)
      simp only [Node.children] at hhead
      unfold distinctSibNames at hhead
      rw [Bool.and_eq_true] at hhead
      simp only [distinctSibAux, Bool.and_eq_true]
      exact ⟨⟨hhead.1, hhead.2⟩, ih (fun m hm => h m (List.mem_cons_of_mem _ hm))⟩

theorem sort_names_perm (F : List Node) :
    List.Perm ((sort_list F).map Node.name) (F.map Node.name) := by
  have h1 : List.Perm ((sort_list F).map Node.name)
      ((F.map sortChildren).map Node.name) := (sort_list_perm F).map Node.name
  refine h1.trans ?_
  rw [List.map_map]
  have : (Node.name ∘ sortChildren) = Node.name := by
    funext n
    exact sortChildren_name n
  rw [this]

theorem distinct_sort_aux : ∀ (N : Nat) (F : List Node), sizeOf F ≤ N →
    distinctSibNames F = true → distinctSibNames (sort_list F) = true := by
  intro N
  induction N with
  | zero =>
    intro F h
    exfalso
    cases F with
    | nil => simp at h
    | cons a l => simp at h
  | succ N ih =>
    intro F hsz hd
    unfold distinctSibNames at hd ⊢
    rw [Bool.and_eq_true] at hd ⊢
    rcases hd with ⟨hnn, haux⟩
    constructor
    · rw [namesNodup_iff]
      refine (sort_names_perm F).nodup_iff.mpr ?_
      rw [← namesNodup_iff]
      exact hnn
    · refine distinctSibAux_of_members _ ?_
      intro n hn
      have hn2 : n ∈ F.map sortChildren := (sort_list_perm F).mem_iff.mp hn
      rcases List.mem_map.mp hn2 with ⟨m, hm, rfl⟩
      cases m with
      | mk i e nm cs =>
        show distinctSibNames (sort_list cs) = true
        have hscs : sizeOf cs ≤ N := by
          have := @sizeOf_children_lt i e nm cs F hm
          omega
        refine ih cs hscs ?_
        have := distinctSibAux_mem F _ haux hm
        simpa [Node.children] using this

theorem relabel_names : ∀ (G : List Node) (p : Nat),
    (relabel G p).map Node.name = G.map Node.name := by
  intro G
  induction G with
  | nil => intro p; rw [show relabel [] p = [] from by rw [relabel]]
  | cons n rest ih =>
    intro p
    cases n with
    | mk i e nm cs =>
      cases cs with
      | nil =>
        rw [show relabel (Node.mk i e nm [] :: rest) p
              = Node.mk p (-1) nm [] :: relabel rest (p + 1) from by rw [relabel]]
        rw [List.map_cons, List.map_cons, ih (p + 1)]
        rfl
      | cons c cs' =>
        rw [show relabel (Node.mk i e nm (c :: cs') :: rest) p
              = Node.mk p ((p + 1 + (encode (c :: cs')).length : Nat) : Int)
                  nm (relabel (c :: cs') (p + 1))
                :: relabel rest (p + 1 + (encode (c :: cs')).length + 1)
            from by rw [relabel]]
        rw [List.map_cons, List.map_cons, ih (p + 1 + (encode (c :: cs')).length + 1)]
        rfl

theorem strictLevel_of_names {l1 l2 : List Node}
    (hnames : l1.map Node.name = l2.map Node.name)
    (h : List.Chain' (fun x y => strcmpLt x.name y.name = true) l2) :
    List.Chain' (fun x y => strcmpLt x.name y.name = true) l1 := by
  have h2 : List.Chain' (fun x y => strcmpLt x y = true) (l2.map Node.name) :=
    (List.chain'_map Node.name).mpr h
  rw [← hnames] at h2
  exact (List.chain'_map Node.name).mp h2

theorem strict_tail {n : Node} {rest : List Node} (h : StrictSortedF (n :: rest)) :
    StrictSortedF rest := by
  cases h with
  | mk _ hchain hchildren =>
    refine StrictSortedF.mk rest (List.Chain'.tail hchain) ?_
    intro m hm
    exact hchildren m (List.mem_cons_of_mem _ hm)

theorem strict_relabel_aux : ∀ (N : Nat) (G : List Node), sizeOf G ≤ N →
    StrictSortedF G → ∀ p, StrictSortedF (relabel G p) := by
  intro N
  induction N with
  | zero =>
    intro G h
    exfalso
    cases G with
    | nil => simp at h
    | cons a l => simp at h
  | succ N ih =>
    intro G hsz hs p
    refine StrictSortedF.mk _ ?_ ?_
    · refine strictLevel_of_names (relabel_names G p) ?_
      cases hs with
      | mk _ hchain _ => exact hchain
    · intro n hn
      cases G with
      | nil =>
        rw [show relabel [] p = [] from by rw [relabel]] at hn
        simp at hn
      | cons m rest =>
        have hrest : StrictSortedF rest := strict_tail hs
        have hszrest : sizeOf rest ≤ N := by
          have : sizeOf rest < sizeOf (m :: rest) := by simp
          omega
        cases m with
        | mk i e nm cs =>
          cases hs with
          | mk _ hchain hchildren =>
            have hcs : StrictSortedF cs := by
              have := hchildren _ (List.mem_cons_self _ _)
              simpa [Node.children] using this
            have hszcs : sizeOf cs ≤ N := by
              have := @sizeOf_children_lt i e nm cs (Node.mk i e nm cs :: rest)
                (List.mem_cons_self _ _)
              omega
            cases cs with
            | nil =>
              rw [show relabel (Node.mk i e nm [] :: rest) p
                    = Node.mk p (-1) nm [] :: relabel rest (p + 1) from by rw [relabel]] at hn
              rcases List.mem_cons.mp hn with rfl | hn'
              · show StrictSortedF (Node.mk p (-1) nm []).children
                simpa [Node.children] using strict_nil
              · have := ih rest hszrest hrest (p + 1)
                cases this with
                | mk _ _ hch2 => exact hch2 n hn'
            | cons c cs' =>
              rw [show relabel (Node.mk i e nm (c :: cs') :: rest) p
                    = Node.mk p ((p + 1 + (encode (c :: cs')).length : Nat) : Int)
                        nm (relabel (c :: cs') (p + 1))
                      :: relabel rest (p + 1 + (encode (c :: cs')).length + 1)
                  from by rw [relabel]] at hn
              rcases List.mem_cons.mp hn with rfl | hn'
              · show StrictSortedF (relabel (c :: cs') (p + 1))
                exact ih (c :: cs') hszcs hcs (p + 1)
              · have := ih rest hszrest hrest (p + 1 + (encode (c :: cs')).length + 1)
                cases this with
                | mk _ _ hch2 => exact hch2 n hn'

theorem relabel_ne_nil : ∀ (c : Node) (cs : List Node) (p : Nat),
    (relabel (c :: cs) p).isEmpty = false := by
  intro c cs p
  cases c with
  | mk i e nm cls =>
    cases cls with
    | nil =>
      rw [show relabel (Node.mk i e nm [] :: cs) p
            = Node.mk p (-1) nm [] :: relabel cs (p + 1) from by rw [relabel]]
      rfl
    | cons d ds =>
      rw [show relabel (Node.mk i e nm (d :: ds) :: cs) p
            = Node.mk p ((p + 1 + (encode (d :: ds)).length : Nat) : Int)
                nm (relabel (d :: ds) (p + 1))
              :: relabel cs (p + 1 + (encode (d :: ds)).length + 1) from by rw [relabel]]
      rfl

theorem range_glue : ∀ (L p R : Nat),
    p :: (List.range' (p + 1) L ++ (p + 1 + L) :: List.range' (p + 1 + L + 1) R)
      = List.range' p (L + R + 2) := by
  intro L
  induction L with
  | zero =>
    intro p R
    have h : 0 + R + 2 = R + 1 + 1 := by omega
    rw [h, List.range'_succ, List.range'_succ]
    simp
  | succ L ih =>
    intro p R
    have h1 : p + 1 + (L + 1) = p + 1 + 1 + L := by omega
    have h3 : L + 1 + R + 2 = L + R + 2 + 1 := by omega
    rw [h1, h3]
    rw [show List.range' (p + 1) (L + 1) = (p + 1) :: List.range' (p + 1 + 1) L from by
      rw [List.range'_succ]]
    rw [List.cons_append, ih (p + 1) R]
    rw [show List.range' p (L + R + 2 + 1) = p :: List.range' (p + 1) (L + R + 2) from by
      rw [List.range'_succ]]

theorem flatten_relabel : ∀ (N : Nat) (G : List Node), sizeOf G ≤ N → ∀ p : Nat,
    flatten_list (relabel G p) = (List.range' p (encode G).length).map Int.ofNat := by
  intro N
  induction N with
  | zero =>
    intro G h
    exfalso
    cases G with
    | nil => simp at h
    | cons a l => simp at h
  | succ N ih =>
    intro G hsz p
    cases G with
    | nil =>
      rw [show relabel [] p = [] from by rw [relabel]]
      rw [show encode ([] : List Node) = [] from by rw [encode]]
      simp [flatten_list]
    | cons m rest =>
      have hszrest : sizeOf rest ≤ N := by
        have : sizeOf rest < sizeOf (m :: rest) := by simp
        omega
      cases m with
      | mk i e nm cs =>
        cases cs with
        | nil =>
          rw [show relabel (Node.mk i e nm [] :: rest) p
                = Node.mk p (-1) nm [] :: relabel rest (p + 1) from by rw [relabel]]
          rw [show encode (Node.mk i e nm [] :: rest)
                = Entry.item nm true :: encode rest from by rw [encode]]
          rw [flatten_list_cons, ih rest hszrest (p + 1), List.length_cons]
          rw [show List.range' p ((encode rest).length + 1)
                = p :: List.range' (p + 1) (encode rest).length from by rw [List.range'_succ]]
          simp [flattenNode, Int.ofNat_eq_natCast]
        | cons c cs' =>
          have hszcs : sizeOf (c :: cs') ≤ N := by
            have := @sizeOf_children_lt i e nm (c :: cs') (Node.mk i e nm (c :: cs') :: rest)
              (List.mem_cons_self _ _)
            omega
          rw [show relabel (Node.mk i e nm (c :: cs') :: rest) p
                = Node.mk p ((p + 1 + (encode (c :: cs')).length : Nat) : Int)
                    nm (relabel (c :: cs') (p + 1))
                  :: relabel rest (p + 1 + (encode (c :: cs')).length + 1)
              from by rw [relabel]]
          rw [show encode (Node.mk i e nm (c :: cs') :: rest)
                = Entry.groupStart nm :: (encode (c :: cs')
                    ++ Entry.groupEnd :: encode rest) from by rw [encode]]
          rw [flatten_list_cons]
          have hne := relabel_ne_nil c cs' (p + 1)
          rw [show flattenNode (Node.mk p ((p + 1 + (encode (c :: cs')).length : Nat) : Int)
                nm (relabel (c :: cs') (p + 1)))
              = (p : Int) :: (flatten_list (relabel (c :: cs') (p + 1))
                  ++ [((p + 1 + (encode (c :: cs')).length : Nat) : Int)]) from by
            simp [flattenNode, hne]]
          rw [ih (c :: cs') hszcs (p + 1)]
          rw [ih rest hszrest (p + 1 + (encode (c :: cs')).length + 1)]
          have hlen : (Entry.groupStart nm :: (encode (c :: cs')
                ++ Entry.groupEnd :: encode rest)).length
              = (encode (c :: cs')).length + (encode rest).length + 2 := by
            simp only [List.length_cons, List.length_append]
            omega
          rw [hlen, ← range_glue (encode (c :: cs')).length p (encode rest).length]
          simp [Int.ofNat_eq_natCast]

theorem moveLoopAux_id : ∀ (f i : Nat) (r : List Int),
    (∀ j, i ≤ j → j < i + f → r.getD j 0 = (j : Int)) →
    moveLoopAux r i f = [] := by
  intro f
  induction f with
  | zero => intro i r _; rw [moveLoopAux]
  | succ f ih =>
    intro i r h
    rw [moveLoopAux]
    have hi : r.getD i 0 = (i : Int) := h i le_rfl (by omega)
    rw [hi, if_pos rfl]
    exact ih (i + 1) r (fun j hj1 hj2 => h j (by omega) (by omega))

theorem move_list_id (r : List Int)
    (h : ∀ j, j < r.length → r.getD j 0 = (j : Int)) : move_list r = [] := by
  rw [move_list]
  exact moveLoopAux_id r.length 0 r (fun j _ h2 => h j (by omega))

/-- C3 counterexample: the claim fails on a valid input with a name tie.
The balanced, fully loaded, placeholder-free input of two items both
named "a" sorts to target `[1, 0]` (the unstable tie reversal); feeding
that output order back yields literally the same entry sequence, so the
second run again produces target `[1, 0]` — not the identity — and the
move loop emits one move, not zero. -/
theorem c3_counterexample :
    balanced [Entry.item [97] true, Entry.item [97] true] = true
    ∧ fullyLoadedB [Entry.item [97] true, Entry.item [97] true] = true
    ∧ placeholderFreeB [Entry.item [97] true, Entry.item [97] true] = true
    ∧ buildForest [Entry.item [97] true, Entry.item [97] true]
        = some ([Node.mk 0 (-1) [97] [], Node.mk 1 (-1) [97] []], 0)
    ∧ (flatten_list (sort_list [Node.mk 0 (-1) [97] [], Node.mk 1 (-1) [97] []])).map
        (fun p => [Entry.item [97] true, Entry.item [97] true].getD p.toNat Entry.placeholder)
        = [Entry.item [97] true, Entry.item [97] true]
    ∧ flatten_list (sort_list [Node.mk 0 (-1) [97] [], Node.mk 1 (-1) [97] []]) ≠ idInts 2
    ∧ sort_playlists (fun _ => 0) [Entry.item [97] true, Entry.item [97] true]
        = some [OutEvent.move 1 0] := by
  have hs : sort_list [Node.mk 0 (-1) [97] [], Node.mk 1 (-1) [97] []]
      = [Node.mk 1 (-1) [97] [], Node.mk 0 (-1) [97] []] := by
    simp [sort_list, sortEach, merge_sort, merge, strcmpLt, Node.name]
  have hf : flatten_list [Node.mk 1 (-1) [97] [], Node.mk 0 (-1) [97] []]
      = [(1 : Int), 0] := by
    simp [flatten_list]
  refine ⟨by decide, by decide, by decide, rfl, ?_, ?_, ?_⟩
  · rw [hs, hf]
    rfl
  · rw [hs, hf]
    decide
  · unfold sort_playlists
    rw [show buildForest [Entry.item [97] true, Entry.item [97] true]
          = some ([Node.mk 0 (-1) [97] [], Node.mk 1 (-1) [97] []], 0) from rfl]
    dsimp only
    rw [if_neg (by omega), if_neg (by simp), hs, hf]
    rfl

/-- C3 (amended): for every balanced input that builds with no unloaded
item, whose forest has no empty group and no two same-named siblings at
any level, the pipeline is idempotent: re-reading the first run's output
order (the flattened sorted forest, looked up in the original entry
sequence) builds a forest whose sort-and-flatten is the identity target
permutation, and a second run emits zero moves (whatever junk the fresh
reorder array holds). -/
theorem c3_amended_idempotent_distinct (E : List Entry) (F : List Node)
    (T : List Int) (E2 : List Entry) (junk2 : Nat → Int)
    (hb : balanced E = true)
    (hbuild : buildForest E = some (F, 0))
    (hg : noEmptyGroups F = true)
    (hd : distinctSibNames F = true)
    (hT : T = flatten_list (sort_list F))
    (hE2 : E2 = T.map (fun p => E.getD p.toNat Entry.placeholder)) :
    ∃ F2 : List Node, buildForest E2 = some (F2, 0)
      ∧ flatten_list (sort_list F2) = idInts E2.length
      ∧ sort_playlists junk2 E2 = some [] := by
  have hden : Denotes E 0 F 0 := balanced_build_denotes hb hbuild
  have hgood : ∀ n ∈ F, GoodT E n :=
    denotes_good hden rfl hg E (fun j _ => by rw [Nat.zero_add])
  have hgoodG : ∀ n ∈ sort_list F, GoodT E n := good_sort_list hgood
  have hE2enc : E2 = encode (sort_list F) := by
    rw [hE2, hT]
    exact encode_eq_aux (sizeOf (sort_list F)) E (sort_list F) le_rfl hgoodG
  have hden2 : Denotes (encode (sort_list F)) 0 (relabel (sort_list F) 0) 0 :=
    encode_denotes_aux (sizeOf (sort_list F)) (sort_list F) le_rfl 0
  have hbuild2 : buildForest E2 = some (relabel (sort_list F) 0, 0) := by
    rw [hE2enc]
    exact denotes_buildForest hden2
  have hsorted : AllSortedF (sort_list F) := allSorted_sort_list_aux (sizeOf F) F le_rfl
  have hdistG : distinctSibNames (sort_list F) = true :=
    distinct_sort_aux (sizeOf F) F le_rfl hd
  have hstrict : StrictSortedF (sort_list F) :=
    strict_of_sorted_distinct (sizeOf (sort_list F)) (sort_list F) le_rfl hsorted hdistG
  have hstrictR : StrictSortedF (relabel (sort_list F) 0) :=
    strict_relabel_aux (sizeOf (sort_list F)) (sort_list F) le_rfl hstrict 0
  have hsortid : sort_list (relabel (sort_list F) 0) = relabel (sort_list F) 0 :=
    sort_strict_id_aux (sizeOf (relabel (sort_list F) 0)) _ le_rfl hstrictR
  have hflat : flatten_list (relabel (sort_list F) 0)
      = (List.range' 0 (encode (sort_list F)).length).map Int.ofNat :=
    flatten_relabel (sizeOf (sort_list F)) (sort_list F) le_rfl 0
  have hlenE2 : E2.length = (encode (sort_list F)).length := by rw [hE2enc]
  have hflat2 : flatten_list (sort_list (relabel (sort_list F) 0)) = idInts E2.length := by
    rw [hsortid, hflat, hlenE2, idInts, List.range_eq_range']
  refine ⟨relabel (sort_list F) 0, hbuild2, hflat2, ?_⟩
  unfold sort_playlists
  rw [hbuild2]
  dsimp only
  by_cases hre : (relabel (sort_list F) 0).isEmpty = true
  · rw [if_neg (by omega), if_pos hre]
  · rw [if_neg (by omega), if_neg hre, hflat2]
    rw [reorderArray_full E2.length (idInts E2.length) junk2 (idInts_length E2.length)]
    rw [move_list_id (idInts E2.length) (fun j hj => by
      rw [idInts_length] at hj
      exact idInts_getD hj)]
    rfl

/-- C3 witness: a concrete two-item run ("b" before "a", distinct
names); every hypothesis of the amended theorem holds and the second
run is the identity with zero moves. -/
theorem c3_witness :
    balanced [Entry.item [98] true, Entry.item [97] true] = true
    ∧ buildForest [Entry.item [98] true, Entry.item [97] true]
        = some ([Node.mk 0 (-1) [98] [], Node.mk 1 (-1) [97] []], 0)
    ∧ noEmptyGroups [Node.mk 0 (-1) [98] [], Node.mk 1 (-1) [97] []] = true
    ∧ distinctSibNames [Node.mk 0 (-1) [98] [], Node.mk 1 (-1) [97] []] = true
    ∧ (∃ F2 : List Node,
        buildForest ((flatten_list (sort_list
              [Node.mk 0 (-1) [98] [], Node.mk 1 (-1) [97] []])).map
            (fun p => [Entry.item [98] true,
              Entry.item [97] true].getD p.toNat Entry.placeholder))
          = some (F2, 0)
        ∧ flatten_list (sort_list F2)
            = idInts ((flatten_list (sort_list
                  [Node.mk 0 (-1) [98] [], Node.mk 1 (-1) [97] []])).map
                (fun p => [Entry.item [98] true,
                  Entry.item [97] true].getD p.toNat Entry.placeholder)).length
        ∧ sort_playlists (fun _ => 5)
            ((flatten_list (sort_list
                [Node.mk 0 (-1) [98] [], Node.mk 1 (-1) [97] []])).map
              (fun p => [Entry.item [98] true,
                Entry.item [97] true].getD p.toNat Entry.placeholder))
          = some []) :=
  ⟨by decide, rfl, by simp [noEmptyGroups],
   by simp [distinctSibNames, distinctSibAux, namesNodup, Node.name],
   c3_amended_idempotent_distinct
     [Entry.item [98] true, Entry.item [97] true]
     [Node.mk 0 (-1) [98] [], Node.mk 1 (-1) [97] []]
     (flatten_list (sort_list [Node.mk 0 (-1) [98] [], Node.mk 1 (-1) [97] []]))
     ((flatten_list (sort_list [Node.mk 0 (-1) [98] [], Node.mk 1 (-1) [97] []])).map
       (fun p => [Entry.item [98] true,
         Entry.item [97] true].getD p.toNat Entry.placeholder))
     (fun _ => 5)
     (by decide) rfl (by simp [noEmptyGroups])
     (by simp [distinctSibNames, distinctSibAux, namesNodup, Node.name]) rfl rfl⟩
